import Mathlib

/-!
Verification of the link-analysis engine of the repository against its
natural-language specification.  The algorithmic core of the repository is
the pair of Python functions `randomised_hits` and `subspace_hits` in
`Assignment2/Pagerank_vs_HITS.md`, together with library calls computing
PageRank and HITS.  We embed the numeric code shallowly over the reals
(machine floats become exact reals; the L2 norm uses `Real.sqrt`; division
by zero follows the Lean convention `x / 0 = 0`, standing in for the NaN
produced by NumPy), and the PageRank solver, which the source delegates to
a library call, is modelled from the specification over the rationals.
-/

open Matrix

/-- L1 distance of two vectors, the convergence measure
`np.linalg.norm(x_new - x, 1)` used by both solvers. -/
def l1dist {n : ℕ} (x y : Fin n → ℝ) : ℝ := ∑ i, |x i - y i|

/-- Euclidean norm `np.linalg.norm(v)` of a vector. -/
noncomputable def l2norm {n : ℕ} (x : Fin n → ℝ) : ℝ :=
  Real.sqrt (∑ i, (x i) ^ 2)

/-- Normalisation step `x_new /= np.linalg.norm(x_new)` of the solvers.
When the norm is zero this divides by zero, which the real-valued model
renders as the zero vector. -/
noncomputable def normalizeL2 {n : ℕ} (x : Fin n → ℝ) : Fin n → ℝ :=
  fun i => x i / l2norm x

/-- Start vector `np.ones(n) / n` shared by both HITS variants. -/
noncomputable def uniformVec (n : ℕ) : Fin n → ℝ := fun _ => 1 / n

/-- All-ones matrix `np.ones_like(AtA)` used for the teleportation mixing. -/
def onesMatrix (n : ℕ) : Matrix (Fin n) (Fin n) ℝ := fun _ _ => 1

/-- Iteration sequence of a solver: `iterSeq step x0 t` is the value held by
the loop variable `x` after `t` successful update-and-assign passes. -/
noncomputable def iterSeq {n : ℕ} (step : (Fin n → ℝ) → (Fin n → ℝ))
    (x0 : Fin n → ℝ) : ℕ → (Fin n → ℝ)
  | 0 => x0
  | t + 1 => step (iterSeq step x0 t)

/-- Shared shape of the `for k in range(max_iter)` loop of `randomised_hits`
and `subspace_hits`: compute `x_new = step x`, test the L1 distance against
`tol`, and on a break return the PREVIOUS iterate `x` together with `k + 1`;
when the fuel runs out return the last assigned iterate and the total count.
The boolean records whether the break fired. -/
noncomputable def powerLoop {n : ℕ} (step : (Fin n → ℝ) → (Fin n → ℝ))
    (tol : ℝ) : (Fin n → ℝ) → ℕ → ℕ → ((Fin n → ℝ) × ℕ × Bool)
  | x, 0, c => (x, c, false)
  | x, Nat.succ fuel, c =>
    let xn := step x
    if l1dist xn x < tol then (x, c + 1, true)
    else powerLoop step tol xn fuel (c + 1)

/-- Proposition that the convergence test of the loop fires at 0-indexed
step `t`, i.e. the L1 distance between iterates `t+1` and `t` is below
`tol`. -/
def firesAt {n : ℕ} (step : (Fin n → ℝ) → (Fin n → ℝ)) (x0 : Fin n → ℝ)
    (tol : ℝ) (t : ℕ) : Prop :=
  l1dist (iterSeq step x0 (t + 1)) (iterSeq step x0 t) < tol

theorem iterSeq_succ {n : ℕ} (step : (Fin n → ℝ) → (Fin n → ℝ))
    (x0 : Fin n → ℝ) (t : ℕ) :
    iterSeq step x0 (t + 1) = step (iterSeq step x0 t) := rfl

/-- Master characterisation of the loop when the test never fires: the
fuel is exhausted, the last assigned iterate is returned and the count is
the number of updates performed. -/
theorem powerLoop_exhaust {n : ℕ} (step : (Fin n → ℝ) → (Fin n → ℝ))
    (tol : ℝ) (x0 : Fin n → ℝ) (maxIter : ℕ)
    (h : ∀ t, t < maxIter → ¬ firesAt step x0 tol t) :
    powerLoop step tol x0 maxIter 0 = (iterSeq step x0 maxIter, maxIter, false) := by
  suffices H : ∀ fuel s, s + fuel = maxIter →
      powerLoop step tol (iterSeq step x0 s) fuel s =
        (iterSeq step x0 maxIter, maxIter, false) by
    simpa using H maxIter 0 (by omega)
  intro fuel
  induction fuel with
  | zero =>
    intro s hs
    have hsm : s = maxIter := by omega
    subst hsm
    simp [powerLoop]
  | succ f ih =>
    intro s hs
    have hs' : s < maxIter := by omega
    have hnot := h s hs'
    rw [powerLoop]
    simp only [firesAt] at hnot
    rw [if_neg (by simpa [iterSeq_succ] using hnot)]
    have := ih (s + 1) (by omega)
    simpa [iterSeq_succ] using this

/-- Master characterisation of the loop when the test first fires at step
`K`: the previous iterate `iterSeq K` is returned, the count is `K + 1`,
and the converged flag is true. -/
theorem powerLoop_fire {n : ℕ} (step : (Fin n → ℝ) → (Fin n → ℝ))
    (tol : ℝ) (x0 : Fin n → ℝ) (maxIter K : ℕ) (hK : K < maxIter)
    (hfire : firesAt step x0 tol K)
    (hmin : ∀ t, t < K → ¬ firesAt step x0 tol t) :
    powerLoop step tol x0 maxIter 0 = (iterSeq step x0 K, K + 1, true) := by
  suffices H : ∀ fuel s, s ≤ K → s + fuel = maxIter →
      powerLoop step tol (iterSeq step x0 s) fuel s =
        (iterSeq step x0 K, K + 1, true) by
    simpa using H maxIter 0 (by omega) (by omega)
  intro fuel
  induction fuel with
  | zero => intro s hsK hs; omega
  | succ f ih =>
    intro s hsK hs
    rw [powerLoop]
    by_cases hcase : s = K
    · subst hcase
      simp only [firesAt] at hfire
      rw [if_pos (by simpa [iterSeq_succ] using hfire)]
    · have hlt : s < K := lt_of_le_of_ne hsK hcase
      have hnot := hmin s hlt
      simp only [firesAt] at hnot
      rw [if_neg (by simpa [iterSeq_succ] using hnot)]
      have := ih (s + 1) (by omega) (by omega)
      simpa [iterSeq_succ] using this

theorem l2norm_nonneg {n : ℕ} (x : Fin n → ℝ) : 0 ≤ l2norm x :=
  Real.sqrt_nonneg _

theorem l2norm_eq_zero_iff {n : ℕ} (x : Fin n → ℝ) :
    l2norm x = 0 ↔ x = 0 := by
  unfold l2norm
  rw [Real.sqrt_eq_zero (by positivity)]
  constructor
  · intro h
    funext i
    have hle : (x i) ^ 2 ≤ 0 := by
      have := Finset.single_le_sum (f := fun j => (x j) ^ 2)
        (fun j _ => by positivity) (Finset.mem_univ i)
      simpa [h] using this
    have : (x i) ^ 2 = 0 := le_antisymm hle (by positivity)
    simpa [pow_eq_zero_iff] using this
  · intro h; simp [h]

theorem l2norm_pos_of_ne_zero {n : ℕ} (x : Fin n → ℝ) (h : x ≠ 0) :
    0 < l2norm x :=
  lt_of_le_of_ne (l2norm_nonneg x) (fun h0 => h ((l2norm_eq_zero_iff x).mp h0.symm))

theorem l2norm_smul_pos {n : ℕ} (x : Fin n → ℝ) (c : ℝ) (hc : 0 ≤ c) :
    l2norm (fun i => c * x i) = c * l2norm x := by
  unfold l2norm
  have : ∑ i, (c * x i) ^ 2 = c ^ 2 * ∑ i, (x i) ^ 2 := by
    rw [Finset.mul_sum]; congr 1; funext i; ring
  rw [this, Real.sqrt_mul (by positivity), Real.sqrt_sq hc]

theorem l2norm_normalizeL2 {n : ℕ} (x : Fin n → ℝ) (h : x ≠ 0) :
    l2norm (normalizeL2 x) = 1 := by
  have hpos := l2norm_pos_of_ne_zero x h
  have : normalizeL2 x = fun i => (l2norm x)⁻¹ * x i := by
    funext i; simp [normalizeL2, div_eq_inv_mul]
  rw [this, l2norm_smul_pos x _ (by positivity)]
  field_simp

theorem normalizeL2_nonneg {n : ℕ} (x : Fin n → ℝ) (h : ∀ i, 0 ≤ x i) :
    ∀ i, 0 ≤ normalizeL2 x i := by
  intro i
  exact div_nonneg (h i) (l2norm_nonneg x)

theorem normalizeL2_pos {n : ℕ} (hn : 0 < n) (x : Fin n → ℝ) (h : ∀ i, 0 < x i) :
    ∀ i, 0 < normalizeL2 x i := by
  have hx : x ≠ 0 := by
    intro h0
    have := h ⟨0, hn⟩
    rw [h0] at this
    exact lt_irrefl 0 this
  intro i
  exact div_pos (h i) (l2norm_pos_of_ne_zero x hx)

/-- Mixed authority matrix of `randomised_hits`:
`AtA = (1 - eps) * (A.T @ A) + (eps / n) * np.ones_like(AtA)`. -/
noncomputable def mixedMatrix (n : ℕ) (A : Matrix (Fin n) (Fin n) ℝ)
    (eps : ℝ) : Matrix (Fin n) (Fin n) ℝ :=
  (1 - eps) • (Aᵀ * A) + (eps / n) • onesMatrix n

/-- Raw update `x_new = AtA @ x` of `randomised_hits`, before
normalisation. -/
noncomputable def randomisedRaw (n : ℕ) (A : Matrix (Fin n) (Fin n) ℝ)
    (eps : ℝ) (x : Fin n → ℝ) : Fin n → ℝ :=
  (mixedMatrix n A eps).mulVec x

/-- Loop body of `randomised_hits`: raw update followed by the L2
normalisation. -/
noncomputable def randomisedStep (n : ℕ) (A : Matrix (Fin n) (Fin n) ℝ)
    (eps : ℝ) (x : Fin n → ℝ) : Fin n → ℝ :=
  normalizeL2 (randomisedRaw n A eps x)

/-- Embedding of the source function `randomised_hits(G, eps, max_iter, tol)`.
The graph enters only through its 0/1 adjacency matrix
`A = nx.to_numpy_array(G, weight=None)`.  The start vector is the
UN-normalised uniform vector `np.ones(n) / n`; on a break the previous
iterate is returned together with `k + 1`.  The boolean records whether the
break (the convergence test) fired. -/
noncomputable def randomised_hits (n : ℕ) (A : Matrix (Fin n) (Fin n) ℝ)
    (eps : ℝ) (maxIter : ℕ) (tol : ℝ) : (Fin n → ℝ) × ℕ × Bool :=
  powerLoop (randomisedStep n A eps) tol (uniformVec n) maxIter 0

/-- Column `j` of an eigenvector matrix, one eigenvector of the
`np.linalg.eigh` output. -/
def colVec {n : ℕ} (V : Matrix (Fin n) (Fin n) ℝ) (j : Fin n) : Fin n → ℝ :=
  fun i => V i j

/-- Predicate characterising a valid output of `np.linalg.eigh(M)` after the
descending reordering `idx = np.argsort(vals)[::-1]` of `subspace_hits`:
the columns of `V` are orthonormal, column `j` is an eigenvector of `M`
with eigenvalue `vals j`, and the eigenvalues are listed in descending
order.  `subspace_hits` is parameterised by such an output because the
eigen-decomposition itself is a library call. -/
def IsEighBasis {n : ℕ} (M V : Matrix (Fin n) (Fin n) ℝ)
    (vals : Fin n → ℝ) : Prop :=
  Vᵀ * V = 1 ∧
  (∀ j, M.mulVec (colVec V j) = vals j • colVec V j) ∧
  (∀ j k : Fin n, j ≤ k → vals k ≤ vals j)

/-- Projection `Q @ (Q.T @ v)` of `subspace_hits`, where
`Q = vecs[:, idx[:k_sub]]` keeps the first `k_sub` (descending-order)
eigenvector columns; a slice bound beyond `n` silently truncates, exactly
as the NumPy slice does. -/
noncomputable def projTop {n : ℕ} (V : Matrix (Fin n) (Fin n) ℝ) (k : ℕ)
    (v : Fin n → ℝ) : Fin n → ℝ :=
  ∑ j : Fin n, if (j : ℕ) < k then (dotProduct (colVec V j) v) • colVec V j else 0

/-- Raw update `Q @ (Q.T @ (M @ x))` of `subspace_hits`, before
normalisation. -/
noncomputable def subspaceRaw {n : ℕ} (M V : Matrix (Fin n) (Fin n) ℝ)
    (k : ℕ) (x : Fin n → ℝ) : Fin n → ℝ :=
  projTop V k (M.mulVec x)

/-- Loop body of `subspace_hits`: multiply by `M`, re-project to the
subspace, renormalise. -/
noncomputable def subspaceStep {n : ℕ} (M V : Matrix (Fin n) (Fin n) ℝ)
    (k : ℕ) (x : Fin n → ℝ) : Fin n → ℝ :=
  normalizeL2 (subspaceRaw M V k x)

/-- Embedding of the source function `subspace_hits(G, k_sub, max_iter, tol)`,
parameterised by the eigen-decomposition output `V` (see `IsEighBasis`).
`M = A.T @ A`; the start vector is `normalize(Q @ (Q.T @ (np.ones(n)/n)))`;
the loop shape and return convention are those of `powerLoop`.  Note the
source performs NO validation of `k_sub`. -/
noncomputable def subspace_hits (n : ℕ) (A V : Matrix (Fin n) (Fin n) ℝ)
    (k_sub : ℕ) (maxIter : ℕ) (tol : ℝ) : (Fin n → ℝ) × ℕ × Bool :=
  powerLoop (subspaceStep (Aᵀ * A) V k_sub) tol
    (normalizeL2 (projTop V k_sub (uniformVec n))) maxIter 0

/-- Unrestricted power iteration with L2 renormalisation on a matrix `M`,
stated after the words of the specification as the comparison point for
Subspace-HITS with `k_sub = n`: same loop shape, no projection, start
vector the normalised uniform vector. -/
noncomputable def specPowerIteration (n : ℕ) (M : Matrix (Fin n) (Fin n) ℝ)
    (maxIter : ℕ) (tol : ℝ) : (Fin n → ℝ) × ℕ × Bool :=
  powerLoop (fun x => normalizeL2 (M.mulVec x)) tol
    (normalizeL2 (uniformVec n)) maxIter 0

theorem mixedMatrix_entry_pos (n : ℕ) (A : Matrix (Fin n) (Fin n) ℝ)
    (eps : ℝ) (hn : 0 < n) (hA : ∀ i j, 0 ≤ A i j) (h0 : 0 < eps)
    (h1 : eps ≤ 1) : ∀ i j, 0 < mixedMatrix n A eps i j := by
  intro i j
  have hAtA : 0 ≤ (Aᵀ * A) i j := by
    rw [Matrix.mul_apply]
    apply Finset.sum_nonneg
    intro k _
    exact mul_nonneg (hA k i) (hA k j)
  have hnR : (0 : ℝ) < n := by exact_mod_cast hn
  have hter : 0 < eps / n := div_pos h0 hnR
  have : mixedMatrix n A eps i j = (1 - eps) * (Aᵀ * A) i j + eps / n := by
    simp [mixedMatrix, onesMatrix, Matrix.add_apply, Matrix.smul_apply]
  rw [this]
  have := mul_nonneg (by linarith : (0:ℝ) ≤ 1 - eps) hAtA
  linarith

theorem mulVec_pos {n : ℕ} (M : Matrix (Fin n) (Fin n) ℝ) (x : Fin n → ℝ)
    (hn : 0 < n) (hM : ∀ i j, 0 < M i j) (hx : ∀ i, 0 < x i) :
    ∀ i, 0 < M.mulVec x i := by
  intro i
  have : M.mulVec x i = ∑ j, M i j * x j := rfl
  rw [this]
  apply Finset.sum_pos
  · intro j _
    exact mul_pos (hM i j) (hx j)
  · exact Finset.univ_nonempty_iff.mpr ⟨⟨0, hn⟩⟩

/-- Every iterate of `randomised_hits` has strictly positive entries when
`0 < eps <= 1` and the adjacency matrix is entrywise non-negative. -/
theorem randomisedIter_pos (n : ℕ) (A : Matrix (Fin n) (Fin n) ℝ) (eps : ℝ)
    (hn : 0 < n) (hA : ∀ i j, 0 ≤ A i j) (h0 : 0 < eps) (h1 : eps ≤ 1) :
    ∀ t i, 0 < iterSeq (randomisedStep n A eps) (uniformVec n) t i := by
  intro t
  induction t with
  | zero =>
    intro i
    have hnR : (0 : ℝ) < n := by exact_mod_cast hn
    simp only [iterSeq, uniformVec]
    positivity
  | succ t ih =>
    intro i
    rw [iterSeq_succ]
    unfold randomisedStep randomisedRaw
    exact normalizeL2_pos hn _
      (mulVec_pos _ _ hn (mixedMatrix_entry_pos n A eps hn hA h0 h1) ih) i

/-- Every iterate of `randomised_hits` after the initial one has unit
Euclidean norm under the same hypotheses. -/
theorem randomisedIter_unit (n : ℕ) (A : Matrix (Fin n) (Fin n) ℝ) (eps : ℝ)
    (hn : 0 < n) (hA : ∀ i j, 0 ≤ A i j) (h0 : 0 < eps) (h1 : eps ≤ 1) :
    ∀ t, l2norm (iterSeq (randomisedStep n A eps) (uniformVec n) (t + 1)) = 1 := by
  intro t
  rw [iterSeq_succ]
  show l2norm (normalizeL2 (randomisedRaw n A eps _)) = 1
  apply l2norm_normalizeL2
  intro hzero
  have hpos : ∀ i, 0 < randomisedRaw n A eps
      (iterSeq (randomisedStep n A eps) (uniformVec n) t) i :=
    mulVec_pos (mixedMatrix n A eps) _ hn
      (mixedMatrix_entry_pos n A eps hn hA h0 h1)
      (randomisedIter_pos n A eps hn hA h0 h1 t)
  have := hpos ⟨0, hn⟩
  rw [hzero] at this
  exact lt_irrefl 0 this

/-- Modelled from the spec: the source computes PageRank through the library
call `nx.pagerank(G, alpha=0.85, weight="weight")`, whose body is not part
of the repository; the solver is therefore modelled from section 4.3 of the
specification.  Row `i` of the stochastic matrix divides the outgoing
weights of node `i` by their sum, and a dangling node (zero out-weight) is
treated as transitioning uniformly to all nodes. -/
def stochasticP (n : ℕ) (W : Matrix (Fin n) (Fin n) ℚ) :
    Matrix (Fin n) (Fin n) ℚ :=
  fun i j => if (∑ l, W i l) = 0 then 1 / n else W i j / (∑ l, W i l)

/-- Modelled from the spec: PageRank update
`x' = alpha * P.T @ x + (1 - alpha) / n * ones` of section 4.3, the body of
the library call `nx.pagerank` missing from the repository. -/
def pagerankStep (n : ℕ) (W : Matrix (Fin n) (Fin n) ℚ) (alpha : ℚ)
    (x : Fin n → ℚ) : Fin n → ℚ :=
  fun i => alpha * (∑ j, stochasticP n W j i * x j) + (1 - alpha) / n

/-- L1 distance over the rationals, the convergence measure of the
spec-modelled PageRank loop. -/
def l1distQ {n : ℕ} (x y : Fin n → ℚ) : ℚ := ∑ i, |x i - y i|

/-- Rational-valued iterate sequence of the spec-modelled PageRank loop. -/
def iterSeqQ {n : ℕ} (step : (Fin n → ℚ) → (Fin n → ℚ))
    (x0 : Fin n → ℚ) : ℕ → (Fin n → ℚ)
  | 0 => x0
  | t + 1 => step (iterSeqQ step x0 t)

/-- Modelled from the spec: the generic fixed-point loop of section 4.2 as
used by the PageRank solver (no renormalisation step is needed): repeat
`x <- f x` and stop with converged = true as soon as the L1 distance of
consecutive iterates drops below `tol`, returning the freshly updated
iterate; after `max_iter` updates return the last iterate with
converged = false. -/
def specLoopQ {n : ℕ} (step : (Fin n → ℚ) → (Fin n → ℚ)) (tol : ℚ) :
    (Fin n → ℚ) → ℕ → ℕ → ((Fin n → ℚ) × ℕ × Bool)
  | x, 0, c => (x, c, false)
  | x, Nat.succ fuel, c =>
    let xn := step x
    if l1distQ xn x < tol then (xn, c + 1, true)
    else specLoopQ step tol xn fuel (c + 1)

/-- Modelled from the spec: the PageRank solver of section 4.3 (the body of
the library call `nx.pagerank` is not part of the repository).  Start
vector uniform, update `pagerankStep`, stopping rule of section 4.2. -/
def pagerank (n : ℕ) (W : Matrix (Fin n) (Fin n) ℚ) (alpha : ℚ)
    (maxIter : ℕ) (tol : ℚ) : (Fin n → ℚ) × ℕ × Bool :=
  specLoopQ (pagerankStep n W alpha) tol (fun _ => 1 / n) maxIter 0

/-- Proposition that the convergence test of the spec-modelled rational loop
fires at 0-indexed step `t`. -/
def firesAtQ {n : ℕ} (step : (Fin n → ℚ) → (Fin n → ℚ)) (x0 : Fin n → ℚ)
    (tol : ℚ) (t : ℕ) : Prop :=
  l1distQ (iterSeqQ step x0 (t + 1)) (iterSeqQ step x0 t) < tol

theorem iterSeqQ_succ {n : ℕ} (step : (Fin n → ℚ) → (Fin n → ℚ))
    (x0 : Fin n → ℚ) (t : ℕ) :
    iterSeqQ step x0 (t + 1) = step (iterSeqQ step x0 t) := rfl

theorem specLoopQ_exhaust {n : ℕ} (step : (Fin n → ℚ) → (Fin n → ℚ))
    (tol : ℚ) (x0 : Fin n → ℚ) (maxIter : ℕ)
    (h : ∀ t, t < maxIter → ¬ firesAtQ step x0 tol t) :
    specLoopQ step tol x0 maxIter 0 = (iterSeqQ step x0 maxIter, maxIter, false) := by
  suffices H : ∀ fuel s, s + fuel = maxIter →
      specLoopQ step tol (iterSeqQ step x0 s) fuel s =
        (iterSeqQ step x0 maxIter, maxIter, false) by
    simpa using H maxIter 0 (by omega)
  intro fuel
  induction fuel with
  | zero =>
    intro s hs
    have hsm : s = maxIter := by omega
    subst hsm
    simp [specLoopQ]
  | succ f ih =>
    intro s hs
    have hnot := h s (by omega)
    rw [specLoopQ]
    simp only [firesAtQ] at hnot
    rw [if_neg (by simpa [iterSeqQ_succ] using hnot)]
    have := ih (s + 1) (by omega)
    simpa [iterSeqQ_succ] using this

theorem specLoopQ_fire {n : ℕ} (step : (Fin n → ℚ) → (Fin n → ℚ))
    (tol : ℚ) (x0 : Fin n → ℚ) (maxIter K : ℕ) (hK : K < maxIter)
    (hfire : firesAtQ step x0 tol K)
    (hmin : ∀ t, t < K → ¬ firesAtQ step x0 tol t) :
    specLoopQ step tol x0 maxIter 0 = (iterSeqQ step x0 (K + 1), K + 1, true) := by
  suffices H : ∀ fuel s, s ≤ K → s + fuel = maxIter →
      specLoopQ step tol (iterSeqQ step x0 s) fuel s =
        (iterSeqQ step x0 (K + 1), K + 1, true) by
    simpa using H maxIter 0 (by omega) (by omega)
  intro fuel
  induction fuel with
  | zero => intro s hsK hs; omega
  | succ f ih =>
    intro s hsK hs
    rw [specLoopQ]
    by_cases hcase : s = K
    · subst hcase
      simp only [firesAtQ] at hfire
      rw [if_pos (by simpa [iterSeqQ_succ] using hfire)]
      simp [iterSeqQ_succ]
    · have hnot := hmin s (lt_of_le_of_ne hsK hcase)
      simp only [firesAtQ] at hnot
      rw [if_neg (by simpa [iterSeqQ_succ] using hnot)]
      have := ih (s + 1) (by omega) (by omega)
      simpa [iterSeqQ_succ] using this

theorem stochasticP_row_sum (n : ℕ) (W : Matrix (Fin n) (Fin n) ℚ)
    (hn : 0 < n) (i : Fin n) : ∑ j, stochasticP n W i j = 1 := by
  unfold stochasticP
  by_cases h : (∑ l, W i l) = 0
  · simp only [h, if_true]
    rw [Finset.sum_const, Finset.card_univ, Fintype.card_fin]
    have hnQ : (n : ℚ) ≠ 0 := by exact_mod_cast hn.ne'
    field_simp
  · simp only [h, if_false]
    rw [← Finset.sum_div, div_eq_one_iff_eq h]

theorem stochasticP_nonneg (n : ℕ) (W : Matrix (Fin n) (Fin n) ℚ)
    (hW : ∀ i j, 0 ≤ W i j) (i j : Fin n) : 0 ≤ stochasticP n W i j := by
  unfold stochasticP
  by_cases h : (∑ l, W i l) = 0
  · simp only [h, if_true]
    positivity
  · simp only [h, if_false]
    have : 0 ≤ ∑ l, W i l := Finset.sum_nonneg fun l _ => hW i l
    exact div_nonneg (hW i j) this

/-- Modelled from the spec: the PageRank update preserves the L1 mass, so
every iterate sums to one.  This is the invariant behind the testable
property that the PageRank ScoreVector sums to 1. -/
theorem pagerankStep_sum (n : ℕ) (W : Matrix (Fin n) (Fin n) ℚ) (alpha : ℚ)
    (hn : 0 < n) (x : Fin n → ℚ) (hx : ∑ i, x i = 1) :
    ∑ i, pagerankStep n W alpha x i = 1 := by
  unfold pagerankStep
  rw [Finset.sum_add_distrib]
  have h1 : ∑ i : Fin n, alpha * (∑ j, stochasticP n W j i * x j)
      = alpha * ∑ j, x j := by
    rw [← Finset.mul_sum]
    congr 1
    rw [Finset.sum_comm]
    have : ∀ j : Fin n, ∑ i : Fin n, stochasticP n W j i * x j = x j := by
      intro j
      rw [← Finset.sum_mul, stochasticP_row_sum n W hn j, one_mul]
    rw [Finset.sum_congr rfl (fun j _ => this j)]
  have h2 : ∑ _i : Fin n, (1 - alpha) / n = 1 - alpha := by
    rw [Finset.sum_const, Finset.card_univ, Fintype.card_fin]
    have hnQ : (n : ℚ) ≠ 0 := by exact_mod_cast hn.ne'
    field_simp
  rw [h1, h2, hx]
  ring

theorem pagerankIter_sum (n : ℕ) (W : Matrix (Fin n) (Fin n) ℚ) (alpha : ℚ)
    (hn : 0 < n) :
    ∀ t, ∑ i, iterSeqQ (pagerankStep n W alpha) (fun _ => 1 / n) t i = 1 := by
  intro t
  induction t with
  | zero =>
    simp only [iterSeqQ]
    rw [Finset.sum_const, Finset.card_univ, Fintype.card_fin]
    have hnQ : (n : ℚ) ≠ 0 := by exact_mod_cast hn.ne'
    field_simp
  | succ t ih =>
    rw [iterSeqQ_succ]
    exact pagerankStep_sum n W alpha hn _ ih

theorem pagerankIter_pos (n : ℕ) (W : Matrix (Fin n) (Fin n) ℚ) (alpha : ℚ)
    (hn : 0 < n) (hW : ∀ i j, 0 ≤ W i j) (h0 : 0 ≤ alpha) (h1 : alpha < 1) :
    ∀ t i, 0 < iterSeqQ (pagerankStep n W alpha) (fun _ => 1 / n) t i := by
  intro t
  induction t with
  | zero =>
    intro i
    have hnQ : (0 : ℚ) < n := by exact_mod_cast hn
    simp only [iterSeqQ]
    positivity
  | succ t ih =>
    intro i
    rw [iterSeqQ_succ]
    have hhead : pagerankStep n W alpha
        (iterSeqQ (pagerankStep n W alpha) (fun _ => 1 / n) t) i
        = alpha * (∑ j, stochasticP n W j i *
            iterSeqQ (pagerankStep n W alpha) (fun _ => 1 / n) t j)
          + (1 - alpha) / n := rfl
    rw [hhead]
    have hnQ : (0 : ℚ) < n := by exact_mod_cast hn
    have hterm : 0 < (1 - alpha) / n := by
      apply div_pos (by linarith) hnQ
    have hsum : 0 ≤ alpha * (∑ j, stochasticP n W j i *
        iterSeqQ (pagerankStep n W alpha) (fun _ => 1 / n) t j) := by
      apply mul_nonneg h0
      apply Finset.sum_nonneg
      intro j _
      exact mul_nonneg (stochasticP_nonneg n W hW j i) (le_of_lt (ih j))
    linarith

/-- Contraction of the spec-modelled PageRank update in the L1 norm: the
update shrinks L1 distances by the factor `alpha`. -/
theorem pagerankStep_contract (n : ℕ) (W : Matrix (Fin n) (Fin n) ℚ)
    (alpha : ℚ) (hW : ∀ i j, 0 ≤ W i j) (h0 : 0 ≤ alpha) (x y : Fin n → ℚ) :
    l1distQ (pagerankStep n W alpha x) (pagerankStep n W alpha y)
      ≤ alpha * l1distQ x y := by
  unfold l1distQ pagerankStep
  have hstep : ∀ i : Fin n,
      |(alpha * (∑ j, stochasticP n W j i * x j) + (1 - alpha) / n) -
       (alpha * (∑ j, stochasticP n W j i * y j) + (1 - alpha) / n)|
      = alpha * |∑ j, stochasticP n W j i * (x j - y j)| := by
    intro i
    have hsplit : ∑ j, stochasticP n W j i * (x j - y j)
        = (∑ j, stochasticP n W j i * x j) - (∑ j, stochasticP n W j i * y j) := by
      rw [← Finset.sum_sub_distrib]
      congr 1
      funext j
      ring
    have : (alpha * (∑ j, stochasticP n W j i * x j) + (1 - alpha) / n) -
       (alpha * (∑ j, stochasticP n W j i * y j) + (1 - alpha) / n)
       = alpha * (∑ j, stochasticP n W j i * (x j - y j)) := by
      rw [hsplit]
      ring
    rw [this, abs_mul, abs_of_nonneg h0]
  rw [Finset.sum_congr rfl (fun i _ => hstep i), ← Finset.mul_sum]
  apply mul_le_mul_of_nonneg_left _ h0
  calc ∑ i, |∑ j, stochasticP n W j i * (x j - y j)|
      ≤ ∑ i, ∑ j, stochasticP n W j i * |x j - y j| := by
        apply Finset.sum_le_sum
        intro i _
        calc |∑ j, stochasticP n W j i * (x j - y j)|
            ≤ ∑ j, |stochasticP n W j i * (x j - y j)| := Finset.abs_sum_le_sum_abs _ _
          _ = ∑ j, stochasticP n W j i * |x j - y j| := by
              congr 1
              funext j
              rw [abs_mul, abs_of_nonneg (stochasticP_nonneg n W hW j i)]
    _ = ∑ j, |x j - y j| := by
        rw [Finset.sum_comm]
        congr 1
        funext j
        rw [← Finset.sum_mul]
        have hrow : ∑ i, stochasticP n W j i = 1 := by
          rcases Nat.eq_zero_or_pos n with hz | hp
          · subst hz; exact absurd j.2 (by omega)
          · exact stochasticP_row_sum n W hp j
        rw [hrow, one_mul]

theorem mulVec_nonneg {n : ℕ} (M : Matrix (Fin n) (Fin n) ℝ) (x : Fin n → ℝ)
    (hM : ∀ i j, 0 ≤ M i j) (hx : ∀ i, 0 ≤ x i) : ∀ i, 0 ≤ M.mulVec x i := by
  intro i
  have hrw : M.mulVec x i = ∑ j, M i j * x j := rfl
  rw [hrw]
  apply Finset.sum_nonneg
  intro j _
  exact mul_nonneg (hM i j) (hx j)

/-- Modelled from the spec: one alternating HITS update of section 4.4 (the
body of the library call `nx.hits` is not part of the repository).  The
authority vector is refreshed from the current hub vector, then the hub
vector from the new authority vector, each with L2 renormalisation.  The
state is the pair (hub, authority). -/
noncomputable def hitsPairStep (n : ℕ) (A : Matrix (Fin n) (Fin n) ℝ)
    (s : (Fin n → ℝ) × (Fin n → ℝ)) : (Fin n → ℝ) × (Fin n → ℝ) :=
  let a := normalizeL2 ((Aᵀ).mulVec s.1)
  let h := normalizeL2 (A.mulVec a)
  (h, a)

/-- Modelled from the spec: the HITS iteration loop of section 4.4, stopping
with converged = true once both vectors pass the L1 test. -/
noncomputable def hitsLoop (n : ℕ) (A : Matrix (Fin n) (Fin n) ℝ) (tol : ℝ) :
    ((Fin n → ℝ) × (Fin n → ℝ)) → ℕ → ℕ →
      (((Fin n → ℝ) × (Fin n → ℝ)) × ℕ × Bool)
  | s, 0, c => (s, c, false)
  | s, Nat.succ fuel, c =>
    let s2 := hitsPairStep n A s
    if l1dist s2.1 s.1 < tol ∧ l1dist s2.2 s.2 < tol then (s2, c + 1, true)
    else hitsLoop n A tol s2 fuel (c + 1)

/-- Modelled from the spec: the HITS solver of section 4.4 (the library call
`nx.hits` is external to the repository); returns the final (hub,
authority) pair with the iteration count and converged flag. -/
noncomputable def nx_hits (n : ℕ) (A : Matrix (Fin n) (Fin n) ℝ)
    (maxIter : ℕ) (tol : ℝ) : ((Fin n → ℝ) × (Fin n → ℝ)) × ℕ × Bool :=
  hitsLoop n A tol (uniformVec n, uniformVec n) maxIter 0

theorem hitsPairStep_nonneg (n : ℕ) (A : Matrix (Fin n) (Fin n) ℝ)
    (hA : ∀ i j, 0 ≤ A i j) (s : (Fin n → ℝ) × (Fin n → ℝ))
    (h1 : ∀ i, 0 ≤ s.1 i) :
    (∀ i, 0 ≤ (hitsPairStep n A s).1 i) ∧ (∀ i, 0 ≤ (hitsPairStep n A s).2 i) := by
  have ha : ∀ i, 0 ≤ normalizeL2 ((Aᵀ).mulVec s.1) i :=
    normalizeL2_nonneg _ (mulVec_nonneg _ _ (fun i j => hA j i) h1)
  refine ⟨?_, ha⟩
  exact normalizeL2_nonneg _ (mulVec_nonneg _ _ hA ha)

theorem hitsLoop_nonneg (n : ℕ) (A : Matrix (Fin n) (Fin n) ℝ) (tol : ℝ)
    (hA : ∀ i j, 0 ≤ A i j) :
    ∀ fuel c s, (∀ i, 0 ≤ (s : (Fin n → ℝ) × (Fin n → ℝ)).1 i) →
      (∀ i, 0 ≤ s.2 i) →
      (∀ i, 0 ≤ (hitsLoop n A tol s fuel c).1.1 i) ∧
      (∀ i, 0 ≤ (hitsLoop n A tol s fuel c).1.2 i) := by
  intro fuel
  induction fuel with
  | zero => intro c s h1 h2; exact ⟨h1, h2⟩
  | succ f ih =>
    intro c s h1 h2
    rw [hitsLoop]
    have hs2 := hitsPairStep_nonneg n A hA s h1
    by_cases hc : l1dist (hitsPairStep n A s).1 s.1 < tol ∧
        l1dist (hitsPairStep n A s).2 s.2 < tol
    · rw [if_pos hc]
      exact hs2
    · rw [if_neg hc]
      exact ih (c + 1) _ hs2.1 hs2.2

/-- Adjacency matrix of the one-node graph with a self-loop. -/
def oneLoopA : Matrix (Fin 1) (Fin 1) ℝ := fun _ _ => 1

/-- Natural eigenvector matrix for the one-node graph: the identity. -/
def oneLoopV : Matrix (Fin 1) (Fin 1) ℝ := 1

theorem oneLoop_isEigh : IsEighBasis (oneLoopAᵀ * oneLoopA) oneLoopV (fun _ => 1) := by
  refine ⟨by simp [oneLoopV], ?_, ?_⟩
  · intro j
    funext i
    fin_cases i; fin_cases j
    simp [oneLoopA, oneLoopV, colVec, Matrix.mulVec, dotProduct, Matrix.mul_apply,
      Matrix.one_apply]
  · intro j k _
    rfl

theorem l2norm_oneVec : l2norm (fun _ : Fin 1 => (1 : ℝ)) = 1 := by
  unfold l2norm
  rw [Fin.sum_univ_one]
  norm_num

theorem oneLoop_projTop (k : ℕ) (hk : 0 < k) (v : Fin 1 → ℝ) :
    projTop oneLoopV k v = v := by
  funext i
  unfold projTop
  rw [Fin.sum_univ_one]
  fin_cases i
  simp only [colVec, oneLoopV]
  rw [if_pos (by simpa using hk)]
  simp [dotProduct, colVec, Matrix.one_apply]

theorem oneLoop_uniform : uniformVec 1 = fun _ => (1 : ℝ) := by
  funext i
  norm_num [uniformVec]

theorem oneLoop_normalize_one : normalizeL2 (fun _ : Fin 1 => (1 : ℝ)) = fun _ => 1 := by
  funext i
  simp [normalizeL2, l2norm_oneVec]

theorem oneLoop_M : oneLoopAᵀ * oneLoopA = oneLoopA := by
  funext i j
  fin_cases i; fin_cases j
  simp [oneLoopA, Matrix.mul_apply]

theorem oneLoop_mulVec_one : oneLoopA.mulVec (fun _ => (1 : ℝ)) = fun _ => 1 := by
  funext i
  fin_cases i
  simp [oneLoopA, Matrix.mulVec, dotProduct]

theorem oneLoop_subspaceStep (k : ℕ) (hk : 0 < k) :
    subspaceStep (oneLoopAᵀ * oneLoopA) oneLoopV k (fun _ => (1 : ℝ)) = fun _ => 1 := by
  unfold subspaceStep subspaceRaw
  rw [oneLoop_M, oneLoop_mulVec_one, oneLoop_projTop k hk, oneLoop_normalize_one]

theorem oneLoop_subspace_x0 (k : ℕ) (hk : 0 < k) :
    normalizeL2 (projTop oneLoopV k (uniformVec 1)) = fun _ => (1 : ℝ) := by
  rw [oneLoop_uniform, oneLoop_projTop k hk, oneLoop_normalize_one]

/-- Evaluation of the subspace solver on the self-loop graph: for any
positive slice bound `k` (including bounds exceeding `n = 1`) the run
converges at the first test with score vector all-ones. -/
theorem oneLoop_subspace_run (k : ℕ) (hk : 0 < k) (tol : ℝ) (htol : 0 < tol)
    (maxIter : ℕ) (hmi : 0 < maxIter) :
    subspace_hits 1 oneLoopA oneLoopV k maxIter tol = (fun _ => (1 : ℝ), 1, true) := by
  unfold subspace_hits
  rw [oneLoop_subspace_x0 k hk]
  have hstep : ∀ t, iterSeq (subspaceStep (oneLoopAᵀ * oneLoopA) oneLoopV k)
      (fun _ => (1 : ℝ)) t = fun _ => (1 : ℝ) := by
    intro t
    induction t with
    | zero => rfl
    | succ t ih => rw [iterSeq_succ, ih, oneLoop_subspaceStep k hk]
  have hfire : firesAt (subspaceStep (oneLoopAᵀ * oneLoopA) oneLoopV k)
      (fun _ => (1 : ℝ)) tol 0 := by
    unfold firesAt
    rw [hstep 1, hstep 0]
    simpa [l1dist] using htol
  rw [powerLoop_fire _ tol _ maxIter 0 hmi hfire (fun t ht => absurd ht (by omega))]
  rw [hstep 0]

theorem oneLoop_mixed (eps : ℝ) : mixedMatrix 1 oneLoopA eps = oneLoopA := by
  funext i j
  fin_cases i; fin_cases j
  simp only [mixedMatrix, onesMatrix, Matrix.add_apply, Matrix.smul_apply, smul_eq_mul]
  rw [oneLoop_M]
  simp [oneLoopA]

/-- Evaluation of `randomised_hits` on the self-loop graph: the mixed matrix
is the identity, so the run converges at the very first test and returns the
all-ones start vector with count 1. -/
theorem oneLoop_randomised_run (eps tol : ℝ) (htol : 0 < tol) (maxIter : ℕ)
    (hmi : 0 < maxIter) :
    randomised_hits 1 oneLoopA eps maxIter tol = (fun _ => (1 : ℝ), 1, true) := by
  unfold randomised_hits
  rw [oneLoop_uniform]
  have hstep : ∀ t, iterSeq (randomisedStep 1 oneLoopA eps)
      (fun _ => (1 : ℝ)) t = fun _ => (1 : ℝ) := by
    intro t
    induction t with
    | zero => rfl
    | succ t ih =>
      rw [iterSeq_succ, ih]
      unfold randomisedStep randomisedRaw
      rw [oneLoop_mixed, oneLoop_mulVec_one, oneLoop_normalize_one]
  have hfire : firesAt (randomisedStep 1 oneLoopA eps)
      (fun _ => (1 : ℝ)) tol 0 := by
    unfold firesAt
    rw [hstep 1, hstep 0]
    simpa [l1dist] using htol
  rw [powerLoop_fire _ tol _ maxIter 0 hmi hfire (fun t ht => absurd ht (by omega))]
  rw [hstep 0]

/-- Adjacency matrix of the two-node graph with no edges. -/
def emptyA2 : Matrix (Fin 2) (Fin 2) ℝ := 0

/-- Natural eigenvector matrix for the empty two-node graph: the identity. -/
def emptyV2 : Matrix (Fin 2) (Fin 2) ℝ := 1

theorem empty2_M : emptyA2ᵀ * emptyA2 = 0 := by
  funext i j
  simp [emptyA2, Matrix.mul_apply]

theorem empty2_isEigh : IsEighBasis (emptyA2ᵀ * emptyA2) emptyV2 (fun _ => 0) := by
  refine ⟨by simp [emptyV2], ?_, ?_⟩
  · intro j
    rw [empty2_M]
    funext i
    simp [Matrix.mulVec, dotProduct, colVec]
  · intro j k _
    rfl

theorem empty2_projTop_uniform :
    projTop emptyV2 1 (uniformVec 2) = fun i => if i = 0 then (1 / 2 : ℝ) else 0 := by
  funext i
  unfold projTop
  rw [Fin.sum_univ_two]
  fin_cases i <;>
    norm_num [colVec, emptyV2, dotProduct, uniformVec, Matrix.one_apply, Fin.sum_univ_two]

theorem empty2_x0 :
    normalizeL2 (projTop emptyV2 1 (uniformVec 2)) =
      fun i => if i = 0 then (1 : ℝ) else 0 := by
  rw [empty2_projTop_uniform]
  have hnorm : l2norm (fun i : Fin 2 => if i = 0 then (1 / 2 : ℝ) else 0) = 1 / 2 := by
    unfold l2norm
    rw [Fin.sum_univ_two]
    have hv : ((if (0 : Fin 2) = 0 then (1 / 2 : ℝ) else 0)) ^ 2 +
        ((if (1 : Fin 2) = 0 then (1 / 2 : ℝ) else 0)) ^ 2 = (1 / 2) ^ 2 := by
      norm_num
    rw [hv, Real.sqrt_sq (by norm_num)]
  funext i
  unfold normalizeL2
  rw [hnorm]
  fin_cases i <;> norm_num

theorem empty2_raw_zero (x : Fin 2 → ℝ) :
    subspaceRaw (emptyA2ᵀ * emptyA2) emptyV2 1 x = 0 := by
  unfold subspaceRaw
  rw [empty2_M]
  have h0 : (0 : Matrix (Fin 2) (Fin 2) ℝ).mulVec x = 0 := by
    funext i
    simp [Matrix.mulVec, dotProduct]
  rw [h0]
  funext i
  unfold projTop
  rw [Fin.sum_univ_two]
  simp [dotProduct, colVec]

theorem normalizeL2_zero (n : ℕ) : normalizeL2 (0 : Fin n → ℝ) = 0 := by
  funext i
  simp [normalizeL2]

theorem empty2_mixed : mixedMatrix 2 emptyA2 (1 / 2) = fun _ _ => (1 / 4 : ℝ) := by
  funext i j
  simp only [mixedMatrix, onesMatrix, Matrix.add_apply, Matrix.smul_apply, smul_eq_mul]
  rw [show emptyA2ᵀ * emptyA2 = 0 from empty2_M]
  norm_num

theorem empty2_uniform : uniformVec 2 = fun _ => (1 / 2 : ℝ) := by
  funext i
  norm_num [uniformVec]

theorem empty2_rand_raw :
    randomisedRaw 2 emptyA2 (1 / 2) (fun _ => (1 / 2 : ℝ)) = fun _ => (1 / 4 : ℝ) := by
  unfold randomisedRaw
  rw [empty2_mixed]
  funext i
  show (∑ j : Fin 2, (1 / 4 : ℝ) * (1 / 2)) = 1 / 4
  rw [Fin.sum_univ_two]
  norm_num

theorem empty2_rand_fire :
    firesAt (randomisedStep 2 emptyA2 (1 / 2)) (uniformVec 2) (1 / 2) 0 := by
  unfold firesAt
  have h0 : iterSeq (randomisedStep 2 emptyA2 (1 / 2)) (uniformVec 2) 0 = uniformVec 2 := rfl
  have h1 : iterSeq (randomisedStep 2 emptyA2 (1 / 2)) (uniformVec 2) 1 =
      fun _ => (1 / 4 : ℝ) / l2norm (fun _ : Fin 2 => (1 / 4 : ℝ)) := by
    rw [iterSeq_succ, h0]
    unfold randomisedStep
    rw [empty2_uniform, empty2_rand_raw]
    rfl
  rw [h0, h1]
  set s := l2norm (fun _ : Fin 2 => (1 / 4 : ℝ)) with hs
  have hsval : s = Real.sqrt (1 / 8) := by
    rw [hs]
    unfold l2norm
    rw [Fin.sum_univ_two]
    norm_num
  have hslb : (17 / 50 : ℝ) ≤ s := by
    rw [hsval, Real.le_sqrt (by norm_num) (by norm_num)]
    norm_num
  have hsub : s ≤ 1 / 2 := by
    rw [hsval]
    calc Real.sqrt (1 / 8) ≤ Real.sqrt ((1 / 2) ^ 2) :=
          Real.sqrt_le_sqrt (by norm_num)
      _ = 1 / 2 := Real.sqrt_sq (by norm_num)
  have hspos : (0 : ℝ) < s := by linarith
  have hlow : (1 / 2 : ℝ) ≤ (1 / 4) / s := by
    rw [div_le_div_iff (by norm_num) hspos] at *
    nlinarith
  have hhigh : (1 / 4 : ℝ) / s ≤ 25 / 34 := by
    rw [div_le_iff hspos]
    nlinarith
  rw [l1dist, Fin.sum_univ_two, empty2_uniform]
  have habs : |(1 / 4 : ℝ) / s - 1 / 2| = (1 / 4) / s - 1 / 2 := by
    rw [abs_of_nonneg]
    linarith
  simp only [habs]
  linarith

/-- Evaluation of `randomised_hits` on the empty two-node graph with
`eps = 1/2` and `tol = 1/2`: the convergence test fires at the very first
step, so the UN-normalised uniform start vector is returned. -/
theorem empty2_rand_run :
    randomised_hits 2 emptyA2 (1 / 2) 200 (1 / 2) = (uniformVec 2, 1, true) := by
  unfold randomised_hits
  rw [powerLoop_fire _ _ _ 200 0 (by norm_num) empty2_rand_fire
    (fun t ht => absurd ht (by omega))]
  rfl

theorem empty2_uniform_norm : l2norm (uniformVec 2) = Real.sqrt (1 / 2) := by
  rw [empty2_uniform]
  unfold l2norm
  rw [Fin.sum_univ_two]
  norm_num

theorem empty2_uniform_norm_ne_one : l2norm (uniformVec 2) ≠ 1 := by
  rw [empty2_uniform_norm]
  intro h
  have := Real.mul_self_sqrt (show (0:ℝ) ≤ 1 / 2 by norm_num)
  rw [h] at this
  norm_num at this

theorem projTop_apply {n : ℕ} (V : Matrix (Fin n) (Fin n) ℝ) (k : ℕ)
    (v : Fin n → ℝ) (i : Fin n) :
    projTop V k v i =
      ∑ j : Fin n, if (j : ℕ) < k then (dotProduct (colVec V j) v) * V i j else 0 := by
  unfold projTop
  rw [Finset.sum_apply]
  congr 1
  funext j
  by_cases h : (j : ℕ) < k
  · rw [if_pos h, if_pos h]
    rfl
  · rw [if_neg h, if_neg h]
    rfl

/-- When the slice keeps at least `n` columns of an orthonormal basis, the
projection `Q @ (Q.T @ v)` is the identity. -/
theorem projTop_eq_id {n : ℕ} (V : Matrix (Fin n) (Fin n) ℝ)
    (hV : Vᵀ * V = 1) (k : ℕ) (hk : n ≤ k) (v : Fin n → ℝ) :
    projTop V k v = v := by
  have hVVt : V * Vᵀ = 1 := Matrix.mul_eq_one_comm.mp hV
  funext i
  rw [projTop_apply]
  have hall : ∀ j : Fin n, ((if (j : ℕ) < k then (dotProduct (colVec V j) v) * V i j else 0))
      = (dotProduct (colVec V j) v) * V i j := by
    intro j
    rw [if_pos (lt_of_lt_of_le j.2 hk)]
  rw [Finset.sum_congr rfl (fun j _ => hall j)]
  have hswap : ∑ j : Fin n, (dotProduct (colVec V j) v) * V i j
      = ∑ l : Fin n, (V * Vᵀ) i l * v l := by
    unfold dotProduct colVec
    calc ∑ j : Fin n, (∑ l, V l j * v l) * V i j
        = ∑ j : Fin n, ∑ l, V l j * v l * V i j := by
          congr 1
          funext j
          rw [Finset.sum_mul]
      _ = ∑ l : Fin n, ∑ j, V l j * v l * V i j := Finset.sum_comm
      _ = ∑ l : Fin n, (V * Vᵀ) i l * v l := by
          congr 1
          funext l
          rw [Matrix.mul_apply, Finset.sum_mul]
          congr 1
          funext j
          rw [Matrix.transpose_apply]
          ring
  rw [hswap, hVVt]
  simp [Matrix.one_apply]

/-- When the slice keeps at least `n` columns, `projTop` does not depend on
the exact bound: the NumPy slice silently truncates at `n`. -/
theorem projTop_truncate {n : ℕ} (V : Matrix (Fin n) (Fin n) ℝ) (k : ℕ)
    (hk : n ≤ k) (v : Fin n → ℝ) : projTop V k v = projTop V n v := by
  unfold projTop
  congr 1
  funext j
  rw [if_pos (lt_of_lt_of_le j.2 hk), if_pos j.2]

/-- Case split for the loop: either the test fires at some minimal step
below the cap, or it never fires and the fuel is exhausted. -/
theorem powerLoop_cases {n : ℕ} (step : (Fin n → ℝ) → (Fin n → ℝ))
    (tol : ℝ) (x0 : Fin n → ℝ) (maxIter : ℕ) :
    (∃ K, K < maxIter ∧ firesAt step x0 tol K ∧
      (∀ t, t < K → ¬ firesAt step x0 tol t) ∧
      powerLoop step tol x0 maxIter 0 = (iterSeq step x0 K, K + 1, true)) ∨
    ((∀ t, t < maxIter → ¬ firesAt step x0 tol t) ∧
      powerLoop step tol x0 maxIter 0 = (iterSeq step x0 maxIter, maxIter, false)) := by
  classical
  by_cases h : ∃ t, t < maxIter ∧ firesAt step x0 tol t
  · left
    obtain ⟨t0, ht0, hf0⟩ := h
    have hex : ∃ t, firesAt step x0 tol t := ⟨t0, hf0⟩
    set K := Nat.find hex with hK
    have hfireK : firesAt step x0 tol K := Nat.find_spec hex
    have hminK : ∀ t, t < K → ¬ firesAt step x0 tol t := fun t ht => Nat.find_min hex ht
    have hKlt : K < maxIter := by
      have : K ≤ t0 := Nat.find_le hf0
      omega
    exact ⟨K, hKlt, hfireK, hminK,
      powerLoop_fire step tol x0 maxIter K hKlt hfireK hminK⟩
  · right
    push_neg at h
    exact ⟨h, powerLoop_exhaust step tol x0 maxIter h⟩

/-- C4: for every graph with `n` nodes, `subspace_hits` called with
`k_sub = n` (or any larger slice bound) coincides exactly with unrestricted
power iteration with L2 renormalisation on `M = A.T @ A`, because the
projector built from all `n` orthonormal eigenvector columns is the
identity.  Exact equality of the full results (score vector, iteration
count and flag) is stronger than agreement within `tol`. -/
theorem C4_subspace_full_is_power_iteration (n : ℕ)
    (A V : Matrix (Fin n) (Fin n) ℝ) (hV : Vᵀ * V = 1) (k maxIter : ℕ)
    (hk : n ≤ k) (tol : ℝ) :
    subspace_hits n A V k maxIter tol = specPowerIteration n (Aᵀ * A) maxIter tol := by
  unfold subspace_hits specPowerIteration
  have hstep : subspaceStep (Aᵀ * A) V k = fun x => normalizeL2 ((Aᵀ * A).mulVec x) := by
    funext x
    unfold subspaceStep subspaceRaw
    rw [projTop_eq_id V hV k hk]
  rw [hstep, projTop_eq_id V hV k hk]

/-- Witness for C4 at the one-node self-loop graph. -/
theorem C4_subspace_full_is_power_iteration_witness :
    (oneLoopVᵀ * oneLoopV = 1) ∧ (1 : ℕ) ≤ 1 ∧
    subspace_hits 1 oneLoopA oneLoopV 1 200 (1 / 10 ^ 8) =
      specPowerIteration 1 (oneLoopAᵀ * oneLoopA) 200 (1 / 10 ^ 8) :=
  ⟨by simp [oneLoopV], le_refl 1,
    C4_subspace_full_is_power_iteration 1 oneLoopA oneLoopV (by simp [oneLoopV])
      1 200 (le_refl 1) (1 / 10 ^ 8)⟩

/-- C6 counterexample: `subspace_hits` performs no validation of `k_sub`.
Called on the one-node self-loop graph with `k_sub = 3 > n = 1` and the
default configuration it raises nothing and produces a full ScoreVector
(all-ones, converged after one update), contradicting the claim that a
`ConfigurationError` prevents any ScoreVector for such `k_sub`. -/
theorem C6_counterexample :
    subspace_hits 1 oneLoopA oneLoopV 3 200 (1 / 10 ^ 8) =
      (fun _ => (1 : ℝ), 1, true) :=
  oneLoop_subspace_run 3 (by norm_num) (1 / 10 ^ 8) (by norm_num) 200 (by norm_num)

/-- C6 amended: the code performs no `k_sub` validation; for any slice
bound of at least `n` the eigenvector slice silently truncates to `n`
columns and the run coincides with the `k_sub = n` run, producing a
ScoreVector rather than failing. -/
theorem C6_slice_truncates (n : ℕ) (A V : Matrix (Fin n) (Fin n) ℝ)
    (k maxIter : ℕ) (hk : n ≤ k) (tol : ℝ) :
    subspace_hits n A V k maxIter tol = subspace_hits n A V n maxIter tol := by
  unfold subspace_hits
  have hstep : subspaceStep (Aᵀ * A) V k = subspaceStep (Aᵀ * A) V n := by
    funext x
    unfold subspaceStep subspaceRaw
    rw [projTop_truncate V k hk]
  rw [hstep, projTop_truncate V k hk]

/-- Witness for the amended C6 at the one-node graph with `k_sub = 3`. -/
theorem C6_slice_truncates_witness :
    (1 : ℕ) ≤ 3 ∧
    subspace_hits 1 oneLoopA oneLoopV 3 200 (1 / 10 ^ 8) =
      subspace_hits 1 oneLoopA oneLoopV 1 200 (1 / 10 ^ 8) :=
  ⟨by omega, C6_slice_truncates 1 oneLoopA oneLoopV 3 200 (by omega) (1 / 10 ^ 8)⟩

theorem oneLoop_rand_iter (eps : ℝ) :
    ∀ t, iterSeq (randomisedStep 1 oneLoopA eps) (uniformVec 1) t =
      fun _ => (1 : ℝ) := by
  intro t
  rw [oneLoop_uniform]
  induction t with
  | zero => rfl
  | succ t ih =>
    rw [iterSeq_succ, ih]
    unfold randomisedStep randomisedRaw
    rw [oneLoop_mixed, oneLoop_mulVec_one, oneLoop_normalize_one]

theorem oneLoop_rand_fire0 (eps tol : ℝ) (htol : 0 < tol) :
    firesAt (randomisedStep 1 oneLoopA eps) (uniformVec 1) tol 0 := by
  unfold firesAt
  rw [oneLoop_rand_iter eps 1, oneLoop_rand_iter eps 0]
  simpa [l1dist] using htol

theorem oneLoop_sub_iter (k : ℕ) (hk : 0 < k) :
    ∀ t, iterSeq (subspaceStep (oneLoopAᵀ * oneLoopA) oneLoopV k)
      (normalizeL2 (projTop oneLoopV k (uniformVec 1))) t = fun _ => (1 : ℝ) := by
  intro t
  rw [oneLoop_subspace_x0 k hk]
  induction t with
  | zero => rfl
  | succ t ih =>
    rw [iterSeq_succ, ih, oneLoop_subspaceStep k hk]

theorem oneLoop_sub_fire0 (k : ℕ) (hk : 0 < k) (tol : ℝ) (htol : 0 < tol) :
    firesAt (subspaceStep (oneLoopAᵀ * oneLoopA) oneLoopV k)
      (normalizeL2 (projTop oneLoopV k (uniformVec 1))) tol 0 := by
  unfold firesAt
  rw [oneLoop_sub_iter k hk 1, oneLoop_sub_iter k hk 0]
  simpa [l1dist] using htol

theorem oneLoop_sub_raw_one (k : ℕ) (hk : 0 < k) :
    subspaceRaw (oneLoopAᵀ * oneLoopA) oneLoopV k (fun _ => (1 : ℝ)) =
      fun _ => (1 : ℝ) := by
  unfold subspaceRaw
  rw [oneLoop_M, oneLoop_mulVec_one, oneLoop_projTop k hk]

theorem empty2_rand_notfire :
    ¬ firesAt (randomisedStep 2 emptyA2 (1 / 2)) (uniformVec 2) (1 / 10 ^ 8) 0 := by
  unfold firesAt
  have h0 : iterSeq (randomisedStep 2 emptyA2 (1 / 2)) (uniformVec 2) 0 = uniformVec 2 := rfl
  have h1 : iterSeq (randomisedStep 2 emptyA2 (1 / 2)) (uniformVec 2) 1 =
      fun _ => (1 / 4 : ℝ) / l2norm (fun _ : Fin 2 => (1 / 4 : ℝ)) := by
    rw [iterSeq_succ, h0]
    unfold randomisedStep
    rw [empty2_uniform, empty2_rand_raw]
    rfl
  rw [h0, h1]
  set s := l2norm (fun _ : Fin 2 => (1 / 4 : ℝ)) with hs
  have hsval : s = Real.sqrt (1 / 8) := by
    rw [hs]
    unfold l2norm
    rw [Fin.sum_univ_two]
    norm_num
  have hspos : (0 : ℝ) < s := by
    rw [hsval]
    exact Real.sqrt_pos.mpr (by norm_num)
  have hsub : s ≤ 36 / 100 := by
    rw [hsval]
    calc Real.sqrt (1 / 8) ≤ Real.sqrt ((36 / 100) ^ 2) :=
          Real.sqrt_le_sqrt (by norm_num)
      _ = 36 / 100 := Real.sqrt_sq (by norm_num)
  have hlow : (25 / 36 : ℝ) ≤ (1 / 4) / s := by
    rw [le_div_iff hspos]
    nlinarith
  rw [l1dist, Fin.sum_univ_two, empty2_uniform]
  have habs : |(1 / 4 : ℝ) / s - 1 / 2| = (1 / 4) / s - 1 / 2 := by
    rw [abs_of_nonneg]
    linarith
  simp only [habs]
  intro hcon
  norm_num at hcon
  linarith

theorem empty2_sub_iter1 :
    iterSeq (subspaceStep (emptyA2ᵀ * emptyA2) emptyV2 1)
      (normalizeL2 (projTop emptyV2 1 (uniformVec 2))) 1 = 0 := by
  rw [iterSeq_succ]
  show subspaceStep (emptyA2ᵀ * emptyA2) emptyV2 1 _ = 0
  unfold subspaceStep
  rw [empty2_raw_zero, normalizeL2_zero]

theorem empty2_sub_notfire :
    ¬ firesAt (subspaceStep (emptyA2ᵀ * emptyA2) emptyV2 1)
      (normalizeL2 (projTop emptyV2 1 (uniformVec 2))) (1 / 2) 0 := by
  unfold firesAt
  rw [empty2_sub_iter1]
  show ¬ l1dist 0 (iterSeq _ _ 0) < 1 / 2
  have h0 : iterSeq (subspaceStep (emptyA2ᵀ * emptyA2) emptyV2 1)
      (normalizeL2 (projTop emptyV2 1 (uniformVec 2))) 0 =
      fun i => if i = 0 then (1 : ℝ) else 0 := empty2_x0
  rw [h0, l1dist, Fin.sum_univ_two]
  norm_num

/-- C7 counterexample: on the empty two-node graph with `eps = 1/2`,
`tol = 1/2` and `max_iter = 200` (a valid configuration), the convergence
test of `randomised_hits` fires at the very first step, and the
ScoreVector returned is the un-normalised uniform start vector, whose
Euclidean norm is the square root of one half rather than one. -/
theorem C7_counterexample :
    (randomised_hits 2 emptyA2 (1 / 2) 200 (1 / 2)).2.2 = true ∧
    l2norm ((randomised_hits 2 emptyA2 (1 / 2) 200 (1 / 2)).1) ≠ 1 := by
  rw [empty2_rand_run]
  exact ⟨rfl, empty2_uniform_norm_ne_one⟩

/-- C7 amended: the authority vector returned by `randomised_hits` has unit
Euclidean norm PROVIDED the convergence test does not fire at the very
first step (when it does, the un-normalised uniform start vector of norm
`1 / sqrt n` is returned); the vector returned by `subspace_hits` has unit
norm provided the projected start vector and every projected update are
non-zero. -/
theorem C7_unit_norm_amended :
    (∀ (n : ℕ) (A : Matrix (Fin n) (Fin n) ℝ) (eps tol : ℝ) (maxIter : ℕ),
      0 < n → (∀ i j, 0 ≤ A i j) → 0 < eps → eps ≤ 1 → 1 ≤ maxIter →
      ¬ firesAt (randomisedStep n A eps) (uniformVec n) tol 0 →
      l2norm ((randomised_hits n A eps maxIter tol).1) = 1) ∧
    (∀ (n : ℕ) (A V : Matrix (Fin n) (Fin n) ℝ) (k maxIter : ℕ) (tol : ℝ),
      projTop V k (uniformVec n) ≠ 0 →
      (∀ t, t < maxIter →
        subspaceRaw (Aᵀ * A) V k (iterSeq (subspaceStep (Aᵀ * A) V k)
          (normalizeL2 (projTop V k (uniformVec n))) t) ≠ 0) →
      l2norm ((subspace_hits n A V k maxIter tol).1) = 1) := by
  constructor
  · intro n A eps tol maxIter hn hA h0 h1 hmi hnof
    unfold randomised_hits
    rcases powerLoop_cases (randomisedStep n A eps) tol (uniformVec n) maxIter with
      ⟨K, hKlt, hfire, hmin, heq⟩ | ⟨hnone, heq⟩
    · rw [heq]
      rcases Nat.eq_zero_or_pos K with hK0 | hKpos
      · subst hK0
        exact absurd hfire hnof
      · obtain ⟨K', rfl⟩ : ∃ K', K = K' + 1 := ⟨K - 1, by omega⟩
        exact randomisedIter_unit n A eps hn hA h0 h1 K'
    · rw [heq]
      obtain ⟨m', rfl⟩ : ∃ m', maxIter = m' + 1 := ⟨maxIter - 1, by omega⟩
      exact randomisedIter_unit n A eps hn hA h0 h1 m'
  · intro n A V k maxIter tol hx0 hraw
    unfold subspace_hits
    have hunit : ∀ K, K ≤ maxIter →
        l2norm (iterSeq (subspaceStep (Aᵀ * A) V k)
          (normalizeL2 (projTop V k (uniformVec n))) K) = 1 := by
      intro K hK
      rcases Nat.eq_zero_or_pos K with hK0 | hKpos
      · subst hK0
        exact l2norm_normalizeL2 _ hx0
      · obtain ⟨K', rfl⟩ : ∃ K', K = K' + 1 := ⟨K - 1, by omega⟩
        rw [iterSeq_succ]
        show l2norm (normalizeL2 (subspaceRaw (Aᵀ * A) V k _)) = 1
        exact l2norm_normalizeL2 _ (hraw K' (by omega))
    rcases powerLoop_cases (subspaceStep (Aᵀ * A) V k) tol
        (normalizeL2 (projTop V k (uniformVec n))) maxIter with
      ⟨K, hKlt, hfire, hmin, heq⟩ | ⟨hnone, heq⟩
    · rw [heq]
      exact hunit K (by omega)
    · rw [heq]
      exact hunit maxIter (le_refl _)

/-- Witness for the amended C7: the empty two-node graph with the default
tolerance does not fire at step 0 and returns a unit vector; the self-loop
graph satisfies the non-degeneracy hypotheses of the subspace part. -/
theorem C7_unit_norm_amended_witness :
    l2norm ((randomised_hits 2 emptyA2 (1 / 2) 200 (1 / 10 ^ 8)).1) = 1 ∧
    l2norm ((subspace_hits 1 oneLoopA oneLoopV 1 200 (1 / 10 ^ 8)).1) = 1 := by
  constructor
  · exact C7_unit_norm_amended.1 2 emptyA2 (1 / 2) (1 / 10 ^ 8) 200 (by norm_num)
      (by intro i j; simp [emptyA2]) (by norm_num) (by norm_num) (by norm_num)
      empty2_rand_notfire
  · refine C7_unit_norm_amended.2 1 oneLoopA oneLoopV 1 200 (1 / 10 ^ 8) ?_ ?_
    · rw [oneLoop_uniform, oneLoop_projTop 1 (by norm_num)]
      intro h
      have := congrFun h 0
      norm_num at this
    · intro t ht
      rw [oneLoop_sub_iter 1 (by norm_num) t, oneLoop_sub_raw_one 1 (by norm_num)]
      intro h
      have := congrFun h 0
      norm_num at this

/-- C9: the iteration count returned by `randomised_hits` and
`subspace_hits` equals the number of matrix-vector update steps performed:
when the L1 test first fires at 0-indexed loop step `K` the count is
`K + 1`, and when `max_iter` is exhausted without firing the count is
exactly `max_iter`. -/
theorem C9_iteration_count :
    (∀ (n : ℕ) (A : Matrix (Fin n) (Fin n) ℝ) (eps tol : ℝ) (maxIter K : ℕ),
      K < maxIter → firesAt (randomisedStep n A eps) (uniformVec n) tol K →
      (∀ t, t < K → ¬ firesAt (randomisedStep n A eps) (uniformVec n) tol t) →
      (randomised_hits n A eps maxIter tol).2.1 = K + 1) ∧
    (∀ (n : ℕ) (A : Matrix (Fin n) (Fin n) ℝ) (eps tol : ℝ) (maxIter : ℕ),
      1 ≤ maxIter →
      (∀ t, t < maxIter → ¬ firesAt (randomisedStep n A eps) (uniformVec n) tol t) →
      (randomised_hits n A eps maxIter tol).2.1 = maxIter) ∧
    (∀ (n : ℕ) (A V : Matrix (Fin n) (Fin n) ℝ) (k : ℕ) (tol : ℝ) (maxIter K : ℕ),
      K < maxIter →
      firesAt (subspaceStep (Aᵀ * A) V k)
        (normalizeL2 (projTop V k (uniformVec n))) tol K →
      (∀ t, t < K → ¬ firesAt (subspaceStep (Aᵀ * A) V k)
        (normalizeL2 (projTop V k (uniformVec n))) tol t) →
      (subspace_hits n A V k maxIter tol).2.1 = K + 1) ∧
    (∀ (n : ℕ) (A V : Matrix (Fin n) (Fin n) ℝ) (k : ℕ) (tol : ℝ) (maxIter : ℕ),
      1 ≤ maxIter →
      (∀ t, t < maxIter → ¬ firesAt (subspaceStep (Aᵀ * A) V k)
        (normalizeL2 (projTop V k (uniformVec n))) tol t) →
      (subspace_hits n A V k maxIter tol).2.1 = maxIter) := by
  refine ⟨?_, ?_, ?_, ?_⟩
  · intro n A eps tol maxIter K hKlt hfire hmin
    unfold randomised_hits
    rw [powerLoop_fire _ tol _ maxIter K hKlt hfire hmin]
  · intro n A eps tol maxIter hmi hnone
    unfold randomised_hits
    rw [powerLoop_exhaust _ tol _ maxIter hnone]
  · intro n A V k tol maxIter K hKlt hfire hmin
    unfold subspace_hits
    rw [powerLoop_fire _ tol _ maxIter K hKlt hfire hmin]
  · intro n A V k tol maxIter hmi hnone
    unfold subspace_hits
    rw [powerLoop_exhaust _ tol _ maxIter hnone]

/-- Witness for C9: the self-loop graph fires at step 0 and returns count
one for both solvers; the empty two-node graph with `max_iter = 1` does
not fire and returns count one as well. -/
theorem C9_iteration_count_witness :
    (randomised_hits 1 oneLoopA (3 / 20) 200 (1 / 10 ^ 8)).2.1 = 0 + 1 ∧
    (subspace_hits 1 oneLoopA oneLoopV 1 200 (1 / 10 ^ 8)).2.1 = 0 + 1 ∧
    (randomised_hits 2 emptyA2 (1 / 2) 1 (1 / 10 ^ 8)).2.1 = 1 ∧
    (subspace_hits 2 emptyA2 emptyV2 1 1 (1 / 2)).2.1 = 1 := by
  refine ⟨?_, ?_, ?_, ?_⟩
  · exact C9_iteration_count.1 1 oneLoopA (3 / 20) (1 / 10 ^ 8) 200 0 (by norm_num)
      (oneLoop_rand_fire0 (3 / 20) (1 / 10 ^ 8) (by norm_num))
      (fun t ht => absurd ht (by omega))
  · exact C9_iteration_count.2.2.1 1 oneLoopA oneLoopV 1 (1 / 10 ^ 8) 200 0 (by norm_num)
      (oneLoop_sub_fire0 1 (by norm_num) (1 / 10 ^ 8) (by norm_num))
      (fun t ht => absurd ht (by omega))
  · exact C9_iteration_count.2.1 2 emptyA2 (1 / 2) (1 / 10 ^ 8) 1 (by norm_num)
      (fun t ht => by
        have ht0 : t = 0 := by omega
        subst ht0
        exact empty2_rand_notfire)
  · exact C9_iteration_count.2.2.2 2 emptyA2 emptyV2 1 (1 / 2) 1 (by norm_num)
      (fun t ht => by
        have ht0 : t = 0 := by omega
        subst ht0
        exact empty2_sub_notfire)

/-- C10: when the convergence test fires, the solvers return the iterate
from BEFORE the final update (so the returned vector differs from its own
normalised update by less than `tol` in L1 distance), and when `max_iter`
is exhausted they return the last computed iterate. -/
theorem C10_returned_iterate :
    (∀ (n : ℕ) (A : Matrix (Fin n) (Fin n) ℝ) (eps tol : ℝ) (maxIter K : ℕ),
      K < maxIter → firesAt (randomisedStep n A eps) (uniformVec n) tol K →
      (∀ t, t < K → ¬ firesAt (randomisedStep n A eps) (uniformVec n) tol t) →
      (randomised_hits n A eps maxIter tol).1 =
        iterSeq (randomisedStep n A eps) (uniformVec n) K ∧
      l1dist (randomisedStep n A eps ((randomised_hits n A eps maxIter tol).1))
        ((randomised_hits n A eps maxIter tol).1) < tol) ∧
    (∀ (n : ℕ) (A : Matrix (Fin n) (Fin n) ℝ) (eps tol : ℝ) (maxIter : ℕ),
      (∀ t, t < maxIter → ¬ firesAt (randomisedStep n A eps) (uniformVec n) tol t) →
      (randomised_hits n A eps maxIter tol).1 =
        iterSeq (randomisedStep n A eps) (uniformVec n) maxIter) ∧
    (∀ (n : ℕ) (A V : Matrix (Fin n) (Fin n) ℝ) (k : ℕ) (tol : ℝ) (maxIter K : ℕ),
      K < maxIter →
      firesAt (subspaceStep (Aᵀ * A) V k)
        (normalizeL2 (projTop V k (uniformVec n))) tol K →
      (∀ t, t < K → ¬ firesAt (subspaceStep (Aᵀ * A) V k)
        (normalizeL2 (projTop V k (uniformVec n))) tol t) →
      (subspace_hits n A V k maxIter tol).1 =
        iterSeq (subspaceStep (Aᵀ * A) V k)
          (normalizeL2 (projTop V k (uniformVec n))) K ∧
      l1dist (subspaceStep (Aᵀ * A) V k ((subspace_hits n A V k maxIter tol).1))
        ((subspace_hits n A V k maxIter tol).1) < tol) ∧
    (∀ (n : ℕ) (A V : Matrix (Fin n) (Fin n) ℝ) (k : ℕ) (tol : ℝ) (maxIter : ℕ),
      (∀ t, t < maxIter → ¬ firesAt (subspaceStep (Aᵀ * A) V k)
        (normalizeL2 (projTop V k (uniformVec n))) tol t) →
      (subspace_hits n A V k maxIter tol).1 =
        iterSeq (subspaceStep (Aᵀ * A) V k)
          (normalizeL2 (projTop V k (uniformVec n))) maxIter) := by
  refine ⟨?_, ?_, ?_, ?_⟩
  · intro n A eps tol maxIter K hKlt hfire hmin
    unfold randomised_hits
    rw [powerLoop_fire _ tol _ maxIter K hKlt hfire hmin]
    refine ⟨rfl, ?_⟩
    simpa [firesAt, iterSeq_succ] using hfire
  · intro n A eps tol maxIter hnone
    unfold randomised_hits
    rw [powerLoop_exhaust _ tol _ maxIter hnone]
  · intro n A V k tol maxIter K hKlt hfire hmin
    unfold subspace_hits
    rw [powerLoop_fire _ tol _ maxIter K hKlt hfire hmin]
    refine ⟨rfl, ?_⟩
    simpa [firesAt, iterSeq_succ] using hfire
  · intro n A V k tol maxIter hnone
    unfold subspace_hits
    rw [powerLoop_exhaust _ tol _ maxIter hnone]

/-- Witness for C10 on the self-loop and empty two-node graphs. -/
theorem C10_returned_iterate_witness :
    (randomised_hits 1 oneLoopA (3 / 20) 200 (1 / 10 ^ 8)).1 =
      iterSeq (randomisedStep 1 oneLoopA (3 / 20)) (uniformVec 1) 0 ∧
    (subspace_hits 2 emptyA2 emptyV2 1 1 (1 / 2)).1 =
      iterSeq (subspaceStep (emptyA2ᵀ * emptyA2) emptyV2 1)
        (normalizeL2 (projTop emptyV2 1 (uniformVec 2))) 1 := by
  constructor
  · exact (C10_returned_iterate.1 1 oneLoopA (3 / 20) (1 / 10 ^ 8) 200 0 (by norm_num)
      (oneLoop_rand_fire0 (3 / 20) (1 / 10 ^ 8) (by norm_num))
      (fun t ht => absurd ht (by omega))).1
  · exact C10_returned_iterate.2.2.2 2 emptyA2 emptyV2 1 (1 / 2) 1
      (fun t ht => by
        have ht0 : t = 0 := by omega
        subst ht0
        exact empty2_sub_notfire)

/-- C1 counterexample: in the `subspace_hits` run on the empty two-node
graph (an eigh basis is the identity, `k_sub = 1`), the raw update at the
actual start iterate is the zero vector, yet the normalisation step does
NOT replace it with the uniform vector `1/n`: it divides by the zero norm,
which the exact model renders as the zero vector. -/
theorem C1_counterexample :
    subspaceRaw (emptyA2ᵀ * emptyA2) emptyV2 1
      (normalizeL2 (projTop emptyV2 1 (uniformVec 2))) = 0 ∧
    subspaceStep (emptyA2ᵀ * emptyA2) emptyV2 1
      (normalizeL2 (projTop emptyV2 1 (uniformVec 2))) ≠ uniformVec 2 := by
  refine ⟨empty2_raw_zero _, ?_⟩
  unfold subspaceStep
  rw [empty2_raw_zero, normalizeL2_zero]
  intro h
  have h0 := congrFun h 0
  rw [empty2_uniform] at h0
  norm_num at h0

/-- C1 amended: there is no uniform-vector fallback in the code.  When the
raw update of `subspace_hits` yields the zero vector the normalisation step
yields the zero vector (division by the zero norm, a NaN vector in
floating point); in `randomised_hits` with `0 < eps <= 1` on a non-empty
graph with non-negative adjacency entries the raw update at every iterate
is strictly positive, so that division by a zero norm never occurs
there. -/
theorem C1_no_uniform_fallback :
    (∀ (n : ℕ) (M V : Matrix (Fin n) (Fin n) ℝ) (k : ℕ) (x : Fin n → ℝ),
      subspaceRaw M V k x = 0 → subspaceStep M V k x = 0) ∧
    (∀ (n : ℕ) (A : Matrix (Fin n) (Fin n) ℝ) (eps : ℝ),
      0 < n → (∀ i j, 0 ≤ A i j) → 0 < eps → eps ≤ 1 → ∀ t,
      randomisedRaw n A eps
        (iterSeq (randomisedStep n A eps) (uniformVec n) t) ≠ 0) := by
  constructor
  · intro n M V k x h
    unfold subspaceStep
    rw [h, normalizeL2_zero]
  · intro n A eps hn hA h0 h1 t hzero
    have hpos : ∀ i, 0 < randomisedRaw n A eps
        (iterSeq (randomisedStep n A eps) (uniformVec n) t) i :=
      mulVec_pos (mixedMatrix n A eps) _ hn
        (mixedMatrix_entry_pos n A eps hn hA h0 h1)
        (randomisedIter_pos n A eps hn hA h0 h1 t)
    have := hpos ⟨0, hn⟩
    rw [hzero] at this
    exact lt_irrefl 0 this

/-- Witness for the amended C1 at the empty two-node graph and the
self-loop graph. -/
theorem C1_no_uniform_fallback_witness :
    subspaceStep (emptyA2ᵀ * emptyA2) emptyV2 1
      (normalizeL2 (projTop emptyV2 1 (uniformVec 2))) = 0 ∧
    randomisedRaw 1 oneLoopA (3 / 20)
      (iterSeq (randomisedStep 1 oneLoopA (3 / 20)) (uniformVec 1) 0) ≠ 0 := by
  constructor
  · exact C1_no_uniform_fallback.1 2 (emptyA2ᵀ * emptyA2) emptyV2 1
      (normalizeL2 (projTop emptyV2 1 (uniformVec 2))) (empty2_raw_zero _)
  · exact C1_no_uniform_fallback.2 1 oneLoopA (3 / 20) (by norm_num)
      (by intro i j; norm_num [oneLoopA]) (by norm_num) (by norm_num) 0

/-- Case split for the rational spec-modelled loop: either the test fires at a
minimal step below the cap, or the fuel is exhausted. -/
theorem specLoopQ_cases {n : ℕ} (step : (Fin n → ℚ) → (Fin n → ℚ))
    (tol : ℚ) (x0 : Fin n → ℚ) (maxIter : ℕ) :
    (∃ K, K < maxIter ∧ firesAtQ step x0 tol K ∧
      (∀ t, t < K → ¬ firesAtQ step x0 tol t) ∧
      specLoopQ step tol x0 maxIter 0 = (iterSeqQ step x0 (K + 1), K + 1, true)) ∨
    ((∀ t, t < maxIter → ¬ firesAtQ step x0 tol t) ∧
      specLoopQ step tol x0 maxIter 0 = (iterSeqQ step x0 maxIter, maxIter, false)) := by
  classical
  by_cases h : ∃ t, t < maxIter ∧ firesAtQ step x0 tol t
  · left
    obtain ⟨t0, ht0, hf0⟩ := h
    have hex : ∃ t, firesAtQ step x0 tol t := ⟨t0, hf0⟩
    set K := Nat.find hex with hK
    have hfireK : firesAtQ step x0 tol K := Nat.find_spec hex
    have hminK : ∀ t, t < K → ¬ firesAtQ step x0 tol t := fun t ht => Nat.find_min hex ht
    have hKlt : K < maxIter := by
      have : K ≤ t0 := Nat.find_le hf0
      omega
    exact ⟨K, hKlt, hfireK, hminK,
      specLoopQ_fire step tol x0 maxIter K hKlt hfireK hminK⟩
  · right
    push_neg at h
    exact ⟨h, specLoopQ_exhaust step tol x0 maxIter h⟩

/-- C5: for every non-empty graph, every alpha in (0,1) and every
configuration, the spec-modelled PageRank ScoreVector sums to one exactly
(the update is L1-normalising by construction), hence in particular within
the tolerance 1e-6 stated by the specification. -/
theorem C5_pagerank_sums_to_one (n : ℕ) (W : Matrix (Fin n) (Fin n) ℚ)
    (alpha tol : ℚ) (maxIter : ℕ) (hn : 0 < n) (ha0 : 0 < alpha)
    (ha1 : alpha < 1) :
    (∑ i, (pagerank n W alpha maxIter tol).1 i) = 1 ∧
    |(∑ i, (pagerank n W alpha maxIter tol).1 i) - 1| ≤ 1 / 10 ^ 6 := by
  have hsum : (∑ i, (pagerank n W alpha maxIter tol).1 i) = 1 := by
    unfold pagerank
    rcases specLoopQ_cases (pagerankStep n W alpha) tol (fun _ => 1 / n) maxIter with
      ⟨K, hKlt, hfire, hmin, heq⟩ | ⟨hnone, heq⟩
    · rw [heq]
      exact pagerankIter_sum n W alpha hn (K + 1)
    · rw [heq]
      exact pagerankIter_sum n W alpha hn maxIter
  refine ⟨hsum, ?_⟩
  rw [hsum]
  norm_num

/-- Witness for C5 at the one-node graph with no edges. -/
theorem C5_pagerank_sums_to_one_witness :
    (∑ i, (pagerank 1 0 (17 / 20) 200 (1 / 10 ^ 8)).1 i) = 1 :=
  (C5_pagerank_sums_to_one 1 0 (17 / 20) (1 / 10 ^ 8) 200 (by norm_num)
    (by norm_num) (by norm_num)).1

/-- Edge list of the small example graph, in source order. -/
def gSmallEdges : List (String × String) :=
  [("Marina Bay Sands", "Gardens by the Bay"),
   ("Gardens by the Bay", "Singapore Zoo"),
   ("Singapore Zoo", "Marina Bay Sands"),
   ("Chinatown", "Gardens by the Bay"),
   ("Sentosa", "Singapore Zoo"),
   ("Marina Bay Sands", "Sentosa")]

/-- Insertion-order node collection, as `nx.DiGraph.add_edges_from` registers
nodes: keep the first occurrence of each endpoint. -/
def insertNode (l : List String) (s : String) : List String :=
  if s ∈ l then l else l ++ [s]

/-- Insertion-ordered list of the distinct nodes of an edge list. -/
def nodesOf (es : List (String × String)) : List String :=
  es.foldl (fun l e => insertNode (insertNode l e.1) e.2) []

/-- Name of node `i` of the small graph in insertion order. -/
def nodeName (i : Fin 5) : String := (nodesOf gSmallEdges).getD i ""

/-- Weighted adjacency matrix of the small example graph over the
insertion-ordered nodes. -/
def W5 : Matrix (Fin 5) (Fin 5) ℚ :=
  fun i j => if (nodeName i, nodeName j) ∈ gSmallEdges then 1 else 0

/-- Explicit form of the adjacency matrix of the small graph: node 0 is
Marina Bay Sands, 1 Gardens by the Bay, 2 Singapore Zoo, 3 Chinatown,
4 Sentosa. -/
def W5exp : Matrix (Fin 5) (Fin 5) ℚ := fun i j =>
  if ((i : ℕ) = 0 ∧ (j : ℕ) = 1) ∨ ((i : ℕ) = 0 ∧ (j : ℕ) = 4) ∨
     ((i : ℕ) = 1 ∧ (j : ℕ) = 2) ∨ ((i : ℕ) = 2 ∧ (j : ℕ) = 0) ∨
     ((i : ℕ) = 3 ∧ (j : ℕ) = 1) ∨ ((i : ℕ) = 4 ∧ (j : ℕ) = 2) then 1 else 0

theorem W5_eq_exp : W5 = W5exp := by decide

/-- Exact stationary vector of the spec-modelled PageRank update on the
small graph with `alpha = 17/20`. -/
def xstar : Fin 5 → ℚ := fun i =>
  if (i : ℕ) = 0 then 1250920 / 4116000
  else if (i : ℕ) = 1 then 760079 / 4116000
  else if (i : ℕ) = 2 then 1326400 / 4116000
  else if (i : ℕ) = 3 then 123480 / 4116000
  else 655121 / 4116000

theorem W5_rowsum : ∀ j : Fin 5, (∑ l, W5exp j l) = (if (j : ℕ) = 0 then 2 else 1) := by
  intro j
  rw [Fin.sum_univ_five]
  fin_cases j <;>
    norm_num [W5exp, show ((3 : Fin 5) : ℕ) = 3 from rfl, show ((4 : Fin 5) : ℕ) = 4 from rfl]

theorem xstar_fixed : pagerankStep 5 W5exp (17 / 20) xstar = xstar := by
  have hP : ∀ j i' : Fin 5, stochasticP 5 W5exp j i' =
      W5exp j i' / (if (j : ℕ) = 0 then 2 else 1) := by
    intro j i'
    show (if (∑ l, W5exp j l) = 0 then 1 / ((5 : ℕ) : ℚ)
      else W5exp j i' / (∑ l, W5exp j l)) = _
    rw [W5_rowsum j]
    by_cases h : (j : ℕ) = 0
    · simp only [if_pos h]
      norm_num
    · simp only [if_neg h]
      norm_num
  funext i
  unfold pagerankStep
  rw [Finset.sum_congr rfl (fun j _ => by rw [hP j i]), Fin.sum_univ_five]
  fin_cases i <;>
    norm_num [W5exp, xstar, show ((3 : Fin 5) : ℕ) = 3 from rfl,
      show ((4 : Fin 5) : ℕ) = 4 from rfl]

theorem l1distQ_symm {n : ℕ} (x y : Fin n → ℚ) : l1distQ x y = l1distQ y x := by
  unfold l1distQ
  congr 1
  funext i
  exact abs_sub_comm _ _

theorem l1distQ_triangle {n : ℕ} (x y z : Fin n → ℚ) :
    l1distQ x z ≤ l1distQ x y + l1distQ y z := by
  unfold l1distQ
  rw [← Finset.sum_add_distrib]
  apply Finset.sum_le_sum
  intro i _
  exact abs_sub_le _ _ _

theorem l1distQ_entry_le {n : ℕ} (x y : Fin n → ℚ) (i : Fin n) :
    |x i - y i| ≤ l1distQ x y :=
  Finset.single_le_sum (f := fun j => |x j - y j|)
    (fun j _ => abs_nonneg _) (Finset.mem_univ i)

theorem l1distQ_le_sums {n : ℕ} (x y : Fin n → ℚ) (hx : ∀ i, 0 ≤ x i)
    (hy : ∀ i, 0 ≤ y i) : l1distQ x y ≤ (∑ i, x i) + (∑ i, y i) := by
  unfold l1distQ
  rw [← Finset.sum_add_distrib]
  apply Finset.sum_le_sum
  intro i _
  calc |x i - y i| ≤ |x i| + |y i| := abs_sub _ _
    _ = x i + y i := by rw [abs_of_nonneg (hx i), abs_of_nonneg (hy i)]

theorem W5exp_nonneg : ∀ i j, 0 ≤ W5exp i j := by
  intro i j
  unfold W5exp
  split <;> norm_num

theorem xstar_nonneg : ∀ i, 0 ≤ xstar i := by
  intro i
  unfold xstar
  split
  · norm_num
  · split
    · norm_num
    · split
      · norm_num
      · split <;> norm_num

theorem xstar_sum : (∑ i, xstar i) = 1 := by
  rw [Fin.sum_univ_five]
  norm_num [xstar, show ((3 : Fin 5) : ℕ) = 3 from rfl, show ((4 : Fin 5) : ℕ) = 4 from rfl]

/-- Distance of every PageRank iterate on the small graph from the exact
stationary vector decays geometrically with ratio `17/20`. -/
theorem small_iter_dist (t : ℕ) :
    l1distQ (iterSeqQ (pagerankStep 5 W5exp (17 / 20)) (fun _ => 1 / 5) t) xstar
      ≤ (17 / 20) ^ t * 2 := by
  induction t with
  | zero =>
    have hx0 : (∑ i : Fin 5, (1 / 5 : ℚ)) = 1 := by
      rw [Fin.sum_univ_five]
      norm_num
    have := l1distQ_le_sums (fun _ : Fin 5 => (1 / 5 : ℚ)) xstar
      (fun i => by norm_num) xstar_nonneg
    rw [hx0, xstar_sum] at this
    show l1distQ (fun _ => 1 / 5) xstar ≤ (17 / 20) ^ 0 * 2
    rw [pow_zero, one_mul]
    linarith
  | succ t ih =>
    rw [iterSeqQ_succ]
    calc l1distQ (pagerankStep 5 W5exp (17 / 20)
          (iterSeqQ (pagerankStep 5 W5exp (17 / 20)) (fun _ => 1 / 5) t)) xstar
        = l1distQ (pagerankStep 5 W5exp (17 / 20)
            (iterSeqQ (pagerankStep 5 W5exp (17 / 20)) (fun _ => 1 / 5) t))
            (pagerankStep 5 W5exp (17 / 20) xstar) := by rw [xstar_fixed]
      _ ≤ (17 / 20) * l1distQ
            (iterSeqQ (pagerankStep 5 W5exp (17 / 20)) (fun _ => 1 / 5) t) xstar :=
          pagerankStep_contract 5 W5exp (17 / 20) W5exp_nonneg (by norm_num) _ _
      _ ≤ (17 / 20) * ((17 / 20) ^ t * 2) := by
          apply mul_le_mul_of_nonneg_left ih (by norm_num)
      _ = (17 / 20) ^ (t + 1) * 2 := by ring

theorem pow200_small : ((17 : ℚ) / 20) ^ 200 * 2 ≤ 1 / 10 ^ 7 := by
  rw [div_pow]
  rw [div_mul_eq_mul_div, div_le_div_iff (by positivity) (by positivity)]
  norm_num

/-- C8 counterexample: the six-edge example graph has five distinct nodes,
not six, so there is no such thing as its six PageRank scores. -/
theorem C8_counterexample :
    (nodesOf gSmallEdges).length = 5 ∧ (nodesOf gSmallEdges).length ≠ 6 := by
  constructor
  · decide
  · decide

/-- Distance of the ScoreVector returned by the spec-modelled PageRank on
the small graph from the exact stationary vector is below 1e-7. -/
theorem small_returned_close :
    (∑ i, (pagerank 5 W5exp (17 / 20) 200 (1 / 10 ^ 8)).1 i) = 1 ∧
    (∀ i, 0 < (pagerank 5 W5exp (17 / 20) 200 (1 / 10 ^ 8)).1 i) ∧
    l1distQ ((pagerank 5 W5exp (17 / 20) 200 (1 / 10 ^ 8)).1) xstar ≤ 1 / 10 ^ 7 := by
  have hx0 : (fun _ : Fin 5 => 1 / ((5 : ℕ) : ℚ)) = (fun _ => 1 / 5) := by
    norm_num
  have hmain : ∀ T, l1distQ (iterSeqQ (pagerankStep 5 W5exp (17 / 20))
      (fun _ => 1 / ((5 : ℕ) : ℚ)) T) xstar ≤ (17 / 20) ^ T * 2 := by
    intro T
    rw [hx0]
    exact small_iter_dist T
  have hsum : ∀ T, (∑ i, iterSeqQ (pagerankStep 5 W5exp (17 / 20))
      (fun _ => 1 / ((5 : ℕ) : ℚ)) T i) = 1 := fun T =>
    pagerankIter_sum 5 W5exp (17 / 20) (by norm_num) T
  have hpos : ∀ T i, 0 < iterSeqQ (pagerankStep 5 W5exp (17 / 20))
      (fun _ => 1 / ((5 : ℕ) : ℚ)) T i := fun T =>
    pagerankIter_pos 5 W5exp (17 / 20) (by norm_num) W5exp_nonneg (by norm_num)
      (by norm_num) T
  unfold pagerank
  rcases specLoopQ_cases (pagerankStep 5 W5exp (17 / 20)) (1 / 10 ^ 8)
      (fun _ => 1 / ((5 : ℕ) : ℚ)) 200 with
    ⟨K, hKlt, hfire, hmin, heq⟩ | ⟨hnone, heq⟩
  · rw [heq]
    refine ⟨hsum (K + 1), hpos (K + 1), ?_⟩
    set itK := iterSeqQ (pagerankStep 5 W5exp (17 / 20))
      (fun _ => 1 / ((5 : ℕ) : ℚ)) K with hitK
    set itK1 := iterSeqQ (pagerankStep 5 W5exp (17 / 20))
      (fun _ => 1 / ((5 : ℕ) : ℚ)) (K + 1) with hitK1
    have h1 : l1distQ itK1 xstar ≤ 17 / 20 * l1distQ itK xstar := by
      rw [hitK1, iterSeqQ_succ]
      calc l1distQ (pagerankStep 5 W5exp (17 / 20) itK) xstar
          = l1distQ (pagerankStep 5 W5exp (17 / 20) itK)
              (pagerankStep 5 W5exp (17 / 20) xstar) := by rw [xstar_fixed]
        _ ≤ 17 / 20 * l1distQ itK xstar :=
            pagerankStep_contract 5 W5exp (17 / 20) W5exp_nonneg (by norm_num) _ _
    have h2 : l1distQ itK xstar ≤ l1distQ itK itK1 + l1distQ itK1 xstar :=
      l1distQ_triangle itK itK1 xstar
    have h3 : l1distQ itK itK1 < 1 / 10 ^ 8 := by
      rw [l1distQ_symm]
      exact hfire
    linarith
  · rw [heq]
    refine ⟨hsum 200, hpos 200, ?_⟩
    calc l1distQ (iterSeqQ (pagerankStep 5 W5exp (17 / 20))
          (fun _ => 1 / ((5 : ℕ) : ℚ)) 200) xstar
        ≤ (17 / 20) ^ 200 * 2 := hmain 200
      _ ≤ 1 / 10 ^ 7 := pow200_small

/-- C8 amended: on the five-node six-edge example graph with
`alpha = 0.85`, all five PageRank scores are strictly positive, they sum
to one, and both Gardens by the Bay (node 1) and Singapore Zoo (node 2)
receive strictly higher scores than each of Chinatown (node 3) and Sentosa
(node 4). -/
theorem C8_small_graph_ranking :
    (∀ i, 0 < (pagerank 5 W5 (17 / 20) 200 (1 / 10 ^ 8)).1 i) ∧
    (∑ i, (pagerank 5 W5 (17 / 20) 200 (1 / 10 ^ 8)).1 i) = 1 ∧
    (pagerank 5 W5 (17 / 20) 200 (1 / 10 ^ 8)).1 3 <
      (pagerank 5 W5 (17 / 20) 200 (1 / 10 ^ 8)).1 1 ∧
    (pagerank 5 W5 (17 / 20) 200 (1 / 10 ^ 8)).1 4 <
      (pagerank 5 W5 (17 / 20) 200 (1 / 10 ^ 8)).1 1 ∧
    (pagerank 5 W5 (17 / 20) 200 (1 / 10 ^ 8)).1 3 <
      (pagerank 5 W5 (17 / 20) 200 (1 / 10 ^ 8)).1 2 ∧
    (pagerank 5 W5 (17 / 20) 200 (1 / 10 ^ 8)).1 4 <
      (pagerank 5 W5 (17 / 20) 200 (1 / 10 ^ 8)).1 2 := by
  rw [W5_eq_exp]
  obtain ⟨hsum, hpos, hclose⟩ := small_returned_close
  set R := (pagerank 5 W5exp (17 / 20) 200 (1 / 10 ^ 8)).1 with hR
  have hent : ∀ i, |R i - xstar i| ≤ 1 / 10 ^ 7 := fun i =>
    le_trans (l1distQ_entry_le R xstar i) hclose
  have he1 := abs_le.mp (hent 1)
  have he2 := abs_le.mp (hent 2)
  have he3 := abs_le.mp (hent 3)
  have he4 := abs_le.mp (hent 4)
  have hx1 : xstar 1 = 760079 / 4116000 := by norm_num [xstar]
  have hx2 : xstar 2 = 1326400 / 4116000 := by norm_num [xstar]
  have hx3 : xstar 3 = 123480 / 4116000 := by
    norm_num [xstar, show ((3 : Fin 5) : ℕ) = 3 from rfl]
  have hx4 : xstar 4 = 655121 / 4116000 := by
    norm_num [xstar, show ((4 : Fin 5) : ℕ) = 4 from rfl]
  rw [hx1] at he1
  rw [hx2] at he2
  rw [hx3] at he3
  rw [hx4] at he4
  refine ⟨hpos, hsum, by linarith, by linarith, by linarith, by linarith⟩

/-- Adjacency matrix (integer form) of the nine-node graph refuting
non-negativity of Subspace-HITS scores.  Nodes 0..1, node 2, and nodes
3..5 are three classes whose in-neighbourhoods are the sets
`S1 = {0..7}`, `S2 = {0,1,8}` and `S3 = {2}` respectively; nodes 6..8
have no in-edges. -/
def A9Z : Matrix (Fin 9) (Fin 9) ℤ := fun i j =>
  if ((j : ℕ) < 2 ∧ (i : ℕ) ≤ 7) ∨
     ((j : ℕ) = 2 ∧ ((i : ℕ) ≤ 1 ∨ (i : ℕ) = 8)) ∨
     (3 ≤ (j : ℕ) ∧ (j : ℕ) ≤ 5 ∧ (i : ℕ) = 2) then 1 else 0

/-- Authority matrix `A.T @ A` of the nine-node graph: block-constant with
blocks given by the intersection pattern of the three in-neighbourhood
sets. -/
def M9Z : Matrix (Fin 9) (Fin 9) ℤ := fun i j =>
  if (i : ℕ) ≤ 1 then
    (if (j : ℕ) ≤ 1 then 8 else if (j : ℕ) = 2 then 2 else if (j : ℕ) ≤ 5 then 1 else 0)
  else if (i : ℕ) = 2 then
    (if (j : ℕ) ≤ 1 then 2 else if (j : ℕ) = 2 then 3 else 0)
  else if (i : ℕ) ≤ 5 then
    (if (j : ℕ) ≤ 1 then 1 else if (j : ℕ) = 2 then 0 else if (j : ℕ) ≤ 5 then 1 else 0)
  else 0

/-- Integer eigenvector columns of `M9Z`: the patterned eigenvectors
(7,7,2,1,1,1,0,0,0), (0,0,3,-2,-2,-2,0,0,0) and (1,1,-4,-2,-2,-2,0,0,0)
for the eigenvalues 17, 3 and 2, followed by a basis of the kernel. -/
def V9Z : Matrix (Fin 9) (Fin 9) ℤ := fun i j =>
  if (j : ℕ) = 0 then
    (if (i : ℕ) ≤ 1 then 7 else if (i : ℕ) = 2 then 2 else if (i : ℕ) ≤ 5 then 1 else 0)
  else if (j : ℕ) = 1 then
    (if (i : ℕ) ≤ 1 then 0 else if (i : ℕ) = 2 then 3 else if (i : ℕ) ≤ 5 then -2 else 0)
  else if (j : ℕ) = 2 then
    (if (i : ℕ) ≤ 1 then 1 else if (i : ℕ) = 2 then -4 else if (i : ℕ) ≤ 5 then -2 else 0)
  else if (j : ℕ) = 3 then
    (if (i : ℕ) = 0 then 1 else if (i : ℕ) = 1 then -1 else 0)
  else if (j : ℕ) = 4 then
    (if (i : ℕ) = 3 then 1 else if (i : ℕ) = 4 then -1 else 0)
  else if (j : ℕ) = 5 then
    (if (i : ℕ) = 3 then 1 else if (i : ℕ) = 4 then 1 else if (i : ℕ) = 5 then -2 else 0)
  else if (j : ℕ) = 6 then (if (i : ℕ) = 6 then 1 else 0)
  else if (j : ℕ) = 7 then (if (i : ℕ) = 7 then 1 else 0)
  else (if (i : ℕ) = 8 then 1 else 0)

/-- Squared Euclidean norms of the columns of `V9Z`. -/
def N9Z : Fin 9 → ℤ := fun j =>
  if (j : ℕ) = 0 then 105 else if (j : ℕ) = 1 then 21 else if (j : ℕ) = 2 then 30
  else if (j : ℕ) = 3 then 2 else if (j : ℕ) = 4 then 2 else if (j : ℕ) = 5 then 6
  else 1

/-- Eigenvalues of `M9Z` in the descending order of the columns of `V9Z`. -/
def vals9Z : Fin 9 → ℤ := fun j =>
  if (j : ℕ) = 0 then 17 else if (j : ℕ) = 1 then 3 else if (j : ℕ) = 2 then 2 else 0

theorem A9Z_gram : A9Zᵀ * A9Z = M9Z := by decide

theorem V9Z_gram : V9Zᵀ * V9Z = Matrix.diagonal N9Z := by decide

theorem V9Z_eig : M9Z * V9Z = V9Z * Matrix.diagonal vals9Z := by decide

theorem V9Z_colsum0 : (∑ i, V9Z i 0) = 19 := by decide

theorem V9Z_colsum1 : (∑ i, V9Z i 1) = -3 := by decide

/-- Real adjacency matrix of the nine-node graph, `nx.to_numpy_array`
output. -/
noncomputable def A9 : Matrix (Fin 9) (Fin 9) ℝ := A9Z.map (Int.castRingHom ℝ)

/-- Real orthonormal eigenvector matrix for the nine-node graph: the
integer columns divided by their Euclidean norms. -/
noncomputable def V9 : Matrix (Fin 9) (Fin 9) ℝ :=
  fun i j => (V9Z i j : ℝ) / Real.sqrt ((N9Z j : ℤ) : ℝ)

/-- Real eigenvalue list for the nine-node graph. -/
noncomputable def vals9 : Fin 9 → ℝ := fun j => ((vals9Z j : ℤ) : ℝ)

theorem N9Z_pos : ∀ j, (0 : ℤ) < N9Z j := by decide

theorem M9_cast : A9ᵀ * A9 = M9Z.map (Int.castRingHom ℝ) := by
  unfold A9
  rw [← Matrix.transpose_map, ← Matrix.map_mul, A9Z_gram]

theorem castsum9 (f : Fin 9 → ℤ) : (∑ i, ((f i : ℤ) : ℝ)) = ((∑ i, f i : ℤ) : ℝ) := by
  push_cast
  rfl

theorem V9_isEigh : IsEighBasis (A9ᵀ * A9) V9 vals9 := by
  have key : ∀ j k, (∑ i, (V9Z i j : ℝ) * (V9Z i k : ℝ))
      = ((Matrix.diagonal N9Z j k : ℤ) : ℝ) := by
    intro j k
    have h := congrFun (congrFun V9Z_gram j) k
    rw [Matrix.mul_apply] at h
    simp only [Matrix.transpose_apply] at h
    rw [show (∑ i, (V9Z i j : ℝ) * (V9Z i k : ℝ))
      = ((∑ i, V9Z i j * V9Z i k : ℤ) : ℝ) by push_cast; rfl]
    exact_mod_cast congrArg (fun z => ((z : ℤ) : ℝ)) h
  refine ⟨?_, ?_, ?_⟩
  · funext j k
    rw [Matrix.mul_apply]
    simp only [Matrix.transpose_apply]
    have hterm : ∀ i, V9 i j * V9 i k =
        ((V9Z i j : ℝ) * (V9Z i k : ℝ)) /
          (Real.sqrt ((N9Z j : ℤ) : ℝ) * Real.sqrt ((N9Z k : ℤ) : ℝ)) := by
      intro i
      unfold V9
      ring
    rw [Finset.sum_congr rfl (fun i _ => hterm i), ← Finset.sum_div, key j k]
    by_cases hjk : j = k
    · subst hjk
      rw [Matrix.diagonal_apply_eq, Real.mul_self_sqrt
        (by exact_mod_cast le_of_lt (N9Z_pos j)), Matrix.one_apply_eq]
      have hne : ((N9Z j : ℤ) : ℝ) ≠ 0 := by
        exact_mod_cast (N9Z_pos j).ne'
      field_simp
    · rw [Matrix.diagonal_apply_ne _ hjk, Matrix.one_apply_ne hjk]
      norm_num
  · intro j
    have colfact : ∀ i, (∑ k, (M9Z i k : ℝ) * (V9Z k j : ℝ))
        = ((vals9Z j : ℤ) : ℝ) * ((V9Z i j : ℤ) : ℝ) := by
      intro i
      have h := congrFun (congrFun V9Z_eig i) j
      rw [Matrix.mul_apply, Matrix.mul_diagonal] at h
      rw [show (∑ k, (M9Z i k : ℝ) * (V9Z k j : ℝ))
        = ((∑ k, M9Z i k * V9Z k j : ℤ) : ℝ) by push_cast; rfl]
      rw [h]
      push_cast
      ring
    rw [M9_cast]
    funext i
    show (∑ k, (M9Z.map (Int.castRingHom ℝ)) i k * colVec V9 j k)
      = vals9 j * colVec V9 j i
    unfold colVec V9 vals9
    simp only [Matrix.map_apply]
    rw [show (∑ k, ((Int.castRingHom ℝ) (M9Z i k)) *
        ((V9Z k j : ℝ) / Real.sqrt ((N9Z j : ℤ) : ℝ)))
      = (∑ k, (M9Z i k : ℝ) * (V9Z k j : ℝ)) / Real.sqrt ((N9Z j : ℤ) : ℝ) from by
        calc (∑ k, ((Int.castRingHom ℝ) (M9Z i k)) *
            ((V9Z k j : ℝ) / Real.sqrt ((N9Z j : ℤ) : ℝ)))
            = ∑ k, ((M9Z i k : ℝ) * (V9Z k j : ℝ)) / Real.sqrt ((N9Z j : ℤ) : ℝ) := by
              congr 1
              funext k
              simp only [Int.coe_castRingHom]
              ring
          _ = (∑ k, (M9Z i k : ℝ) * (V9Z k j : ℝ)) / Real.sqrt ((N9Z j : ℤ) : ℝ) :=
              (Finset.sum_div _ _ _).symm]
    rw [colfact i]
    ring
  · intro j k hjk
    have hZ : ∀ j k : Fin 9, j ≤ k → vals9Z k ≤ vals9Z j := by decide
    unfold vals9
    exact_mod_cast hZ j k hjk

theorem abs_entry_le_l2norm {n : ℕ} (v : Fin n → ℝ) (i : Fin n) :
    |v i| ≤ l2norm v := by
  unfold l2norm
  rw [show |v i| = Real.sqrt ((v i) ^ 2) by rw [Real.sqrt_sq_eq_abs]]
  apply Real.sqrt_le_sqrt
  exact Finset.single_le_sum (f := fun j => (v j) ^ 2)
    (fun j _ => by positivity) (Finset.mem_univ i)

theorem normalizeL2_abs_le_one {n : ℕ} (v : Fin n → ℝ) (i : Fin n) :
    |normalizeL2 v i| ≤ 1 := by
  unfold normalizeL2
  rcases eq_or_lt_of_le (l2norm_nonneg v) with h0 | hpos
  · rw [← h0]
    simp
  · rw [abs_div, abs_of_pos hpos, div_le_one hpos]
    exact abs_entry_le_l2norm v i

theorem l1dist_le_two_mul {n : ℕ} (x y : Fin n → ℝ) (hx : ∀ i, |x i| ≤ 1)
    (hy : ∀ i, |y i| ≤ 1) : l1dist x y ≤ 2 * n := by
  unfold l1dist
  calc ∑ i, |x i - y i| ≤ ∑ i : Fin n, (2 : ℝ) := by
        apply Finset.sum_le_sum
        intro i _
        calc |x i - y i| ≤ |x i| + |y i| := abs_sub _ _
          _ ≤ 2 := by linarith [hx i, hy i]
    _ = 2 * n := by
        rw [Finset.sum_const, Finset.card_univ, Fintype.card_fin, nsmul_eq_mul]
        ring

theorem projTop9_two (V : Matrix (Fin 9) (Fin 9) ℝ) (v : Fin 9 → ℝ) :
    projTop V 2 v = fun i =>
      dotProduct (colVec V 0) v * V i 0 + dotProduct (colVec V 1) v * V i 1 := by
  funext i
  rw [projTop_apply]
  have hzero : ∀ x ∈ Finset.univ, x ∉ ({0, 1} : Finset (Fin 9)) →
      (if (x : ℕ) < 2 then (dotProduct (colVec V x) v) * V i x else 0) = 0 := by
    intro x _ hx
    rw [if_neg]
    intro hlt
    apply hx
    fin_cases x <;> simp_all
  rw [← Finset.sum_subset (Finset.subset_univ ({0, 1} : Finset (Fin 9))) hzero]
  rw [Finset.sum_insert (by decide), Finset.sum_singleton]
  rw [if_pos (by norm_num), if_pos (by norm_num)]

/-- Projection of the uniform start vector onto the top-2 eigenspace of the
nine-node graph, in closed rational form. -/
theorem proj9_uniform : projTop V9 2 (uniformVec 9) =
    fun i => 19 * (V9Z i 0 : ℝ) / 945 - (V9Z i 1 : ℝ) / 63 := by
  rw [projTop9_two]
  have h105 : Real.sqrt ((N9Z 0 : ℤ) : ℝ) * Real.sqrt ((N9Z 0 : ℤ) : ℝ) = 105 := by
    rw [Real.mul_self_sqrt (by exact_mod_cast le_of_lt (N9Z_pos 0))]
    norm_num [N9Z]
  have h21 : Real.sqrt ((N9Z 1 : ℤ) : ℝ) * Real.sqrt ((N9Z 1 : ℤ) : ℝ) = 21 := by
    rw [Real.mul_self_sqrt (by exact_mod_cast le_of_lt (N9Z_pos 1))]
    norm_num [N9Z]
  have hd0 : dotProduct (colVec V9 0) (uniformVec 9)
      = 19 / (9 * Real.sqrt ((N9Z 0 : ℤ) : ℝ)) := by
    unfold dotProduct colVec V9 uniformVec
    rw [show (∑ i, (V9Z i 0 : ℝ) / Real.sqrt ((N9Z 0 : ℤ) : ℝ) * (1 / (9 : ℕ)))
      = (∑ i, (V9Z i 0 : ℝ)) / Real.sqrt ((N9Z 0 : ℤ) : ℝ) * (1 / 9) from by
        rw [Finset.sum_div, Finset.sum_mul]
        norm_num]
    rw [castsum9 (fun i => V9Z i 0), V9Z_colsum0]
    push_cast
    ring
  have hd1 : dotProduct (colVec V9 1) (uniformVec 9)
      = -3 / (9 * Real.sqrt ((N9Z 1 : ℤ) : ℝ)) := by
    unfold dotProduct colVec V9 uniformVec
    rw [show (∑ i, (V9Z i 1 : ℝ) / Real.sqrt ((N9Z 1 : ℤ) : ℝ) * (1 / (9 : ℕ)))
      = (∑ i, (V9Z i 1 : ℝ)) / Real.sqrt ((N9Z 1 : ℤ) : ℝ) * (1 / 9) from by
        rw [Finset.sum_div, Finset.sum_mul]
        norm_num]
    rw [castsum9 (fun i => V9Z i 1), V9Z_colsum1]
    push_cast
    ring
  funext i
  rw [hd0, hd1]
  unfold V9
  have hs0 : Real.sqrt ((N9Z 0 : ℤ) : ℝ) ≠ 0 := by
    intro h
    rw [h] at h105
    norm_num at h105
  have hs1 : Real.sqrt ((N9Z 1 : ℤ) : ℝ) ≠ 0 := by
    intro h
    rw [h] at h21
    norm_num at h21
  calc 19 / (9 * Real.sqrt ((N9Z 0 : ℤ) : ℝ)) *
        ((V9Z i 0 : ℝ) / Real.sqrt ((N9Z 0 : ℤ) : ℝ)) +
      -3 / (9 * Real.sqrt ((N9Z 1 : ℤ) : ℝ)) *
        ((V9Z i 1 : ℝ) / Real.sqrt ((N9Z 1 : ℤ) : ℝ))
      = 19 * (V9Z i 0 : ℝ) /
          (9 * (Real.sqrt ((N9Z 0 : ℤ) : ℝ) * Real.sqrt ((N9Z 0 : ℤ) : ℝ))) +
        (-3) * (V9Z i 1 : ℝ) /
          (9 * (Real.sqrt ((N9Z 1 : ℤ) : ℝ) * Real.sqrt ((N9Z 1 : ℤ) : ℝ))) := by
        field_simp
        ring
    _ = 19 * (V9Z i 0 : ℝ) / 945 - (V9Z i 1 : ℝ) / 63 := by
        rw [h105, h21]
        ring

theorem pu9_entry0 : (19 * (V9Z 0 0 : ℝ) / 945 - (V9Z 0 1 : ℝ) / 63) = 133 / 945 := by
  rw [show (V9Z 0 0 : ℤ) = 7 from by decide, show (V9Z 0 1 : ℤ) = 0 from by decide]
  norm_num

theorem pu9_entry2 : (19 * (V9Z 2 0 : ℝ) / 945 - (V9Z 2 1 : ℝ) / 63) = -7 / 945 := by
  rw [show (V9Z 2 0 : ℤ) = 2 from by decide, show (V9Z 2 1 : ℤ) = 3 from by decide]
  norm_num

theorem pu9_ne_zero :
    (fun i => 19 * (V9Z i 0 : ℝ) / 945 - (V9Z i 1 : ℝ) / 63) ≠ (0 : Fin 9 → ℝ) := by
  intro h
  have h0 := congrFun h 0
  rw [pu9_entry0] at h0
  norm_num at h0

/-- The convergence test of the `subspace_hits` run on the nine-node graph
with tolerance 100 fires at the very first step: consecutive normalised
iterates have entries of absolute value at most one, so their L1 distance
is at most 18. -/
theorem nine_sub_fire0 :
    firesAt (subspaceStep (A9ᵀ * A9) V9 2)
      (normalizeL2 (projTop V9 2 (uniformVec 9))) 100 0 := by
  unfold firesAt
  have h0 : iterSeq (subspaceStep (A9ᵀ * A9) V9 2)
      (normalizeL2 (projTop V9 2 (uniformVec 9))) 0 =
      normalizeL2 (projTop V9 2 (uniformVec 9)) := rfl
  have h1 : iterSeq (subspaceStep (A9ᵀ * A9) V9 2)
      (normalizeL2 (projTop V9 2 (uniformVec 9))) 1 =
      normalizeL2 (subspaceRaw (A9ᵀ * A9) V9 2
        (normalizeL2 (projTop V9 2 (uniformVec 9)))) := rfl
  rw [h0, h1]
  have hb := l1dist_le_two_mul
    (normalizeL2 (subspaceRaw (A9ᵀ * A9) V9 2
      (normalizeL2 (projTop V9 2 (uniformVec 9)))))
    (normalizeL2 (projTop V9 2 (uniformVec 9)))
    (normalizeL2_abs_le_one _) (normalizeL2_abs_le_one _)
  calc l1dist _ _ ≤ 2 * (9 : ℕ) := hb
    _ < 100 := by norm_num

/-- C3 counterexample: on the nine-node graph whose authority matrix has
integer eigenvalues 17 > 3 > 2 > 0, running `subspace_hits` with the valid
slice size `k_sub = 2` (between 1 and `n = 9`) and a valid tolerance
returns a ScoreVector whose entry at node 2 is strictly negative: the
projection of the uniform start vector onto the top-2 eigenspace has a
negative coordinate. -/
theorem C3_counterexample :
    IsEighBasis (A9ᵀ * A9) V9 vals9 ∧ (1 ≤ 2 ∧ 2 ≤ 9) ∧
    (subspace_hits 9 A9 V9 2 200 100).1 2 < 0 := by
  refine ⟨V9_isEigh, ⟨by norm_num, by norm_num⟩, ?_⟩
  unfold subspace_hits
  rw [powerLoop_fire _ 100 _ 200 0 (by norm_num) nine_sub_fire0
    (fun t ht => absurd ht (by omega))]
  show normalizeL2 (projTop V9 2 (uniformVec 9)) 2 < 0
  rw [proj9_uniform]
  unfold normalizeL2
  apply div_neg_of_neg_of_pos
  · show (19 * (V9Z 2 0 : ℝ) / 945 - (V9Z 2 1 : ℝ) / 63) < 0
    rw [pu9_entry2]
    norm_num
  · apply l2norm_pos_of_ne_zero
    exact pu9_ne_zero

/-- C3 amended: the ScoreVectors of the spec-modelled PageRank and HITS
solvers and of `randomised_hits` are entrywise non-negative, but
`subspace_hits` can return strictly negative scores. -/
theorem C3_nonneg_amended :
    (∀ (n : ℕ) (W : Matrix (Fin n) (Fin n) ℚ) (alpha tol : ℚ) (maxIter : ℕ),
      0 < n → (∀ i j, 0 ≤ W i j) → 0 ≤ alpha → alpha < 1 →
      ∀ i, 0 ≤ (pagerank n W alpha maxIter tol).1 i) ∧
    (∀ (n : ℕ) (A : Matrix (Fin n) (Fin n) ℝ) (maxIter : ℕ) (tol : ℝ),
      (∀ i j, 0 ≤ A i j) →
      (∀ i, 0 ≤ (nx_hits n A maxIter tol).1.1 i) ∧
      (∀ i, 0 ≤ (nx_hits n A maxIter tol).1.2 i)) ∧
    (∀ (n : ℕ) (A : Matrix (Fin n) (Fin n) ℝ) (eps tol : ℝ) (maxIter : ℕ),
      0 < n → (∀ i j, 0 ≤ A i j) → 0 < eps → eps ≤ 1 →
      ∀ i, 0 ≤ (randomised_hits n A eps maxIter tol).1 i) := by
  refine ⟨?_, ?_, ?_⟩
  · intro n W alpha tol maxIter hn hW h0 h1 i
    unfold pagerank
    rcases specLoopQ_cases (pagerankStep n W alpha) tol (fun _ => 1 / n) maxIter with
      ⟨K, hKlt, hfire, hmin, heq⟩ | ⟨hnone, heq⟩
    · rw [heq]
      exact le_of_lt (pagerankIter_pos n W alpha hn hW h0 h1 (K + 1) i)
    · rw [heq]
      exact le_of_lt (pagerankIter_pos n W alpha hn hW h0 h1 maxIter i)
  · intro n A maxIter tol hA
    unfold nx_hits
    exact hitsLoop_nonneg n A tol hA maxIter 0 (uniformVec n, uniformVec n)
      (fun i => by unfold uniformVec; positivity)
      (fun i => by unfold uniformVec; positivity)
  · intro n A eps tol maxIter hn hA h0 h1 i
    unfold randomised_hits
    rcases powerLoop_cases (randomisedStep n A eps) tol (uniformVec n) maxIter with
      ⟨K, hKlt, hfire, hmin, heq⟩ | ⟨hnone, heq⟩
    · rw [heq]
      exact le_of_lt (randomisedIter_pos n A eps hn hA h0 h1 K i)
    · rw [heq]
      exact le_of_lt (randomisedIter_pos n A eps hn hA h0 h1 maxIter i)

/-- Witness for the amended C3 at small concrete graphs. -/
theorem C3_nonneg_amended_witness :
    (∀ i, 0 ≤ (pagerank 1 0 (17 / 20) 200 (1 / 10 ^ 8)).1 i) ∧
    (∀ i, 0 ≤ (nx_hits 1 oneLoopA 200 (1 / 10 ^ 8)).1.2 i) ∧
    (∀ i, 0 ≤ (randomised_hits 1 oneLoopA (3 / 20) 200 (1 / 10 ^ 8)).1 i) := by
  refine ⟨?_, ?_, ?_⟩
  · exact C3_nonneg_amended.1 1 0 (17 / 20) (1 / 10 ^ 8) 200 (by norm_num)
      (by intro i j; norm_num) (by norm_num) (by norm_num)
  · exact (C3_nonneg_amended.2.1 1 oneLoopA 200 (1 / 10 ^ 8)
      (by intro i j; norm_num [oneLoopA])).2
  · exact C3_nonneg_amended.2.2 1 oneLoopA (3 / 20) (1 / 10 ^ 8) 200 (by norm_num)
      (by intro i j; norm_num [oneLoopA]) (by norm_num) (by norm_num)

/-- Integer adjacency matrix of a 39-node graph on which `randomised_hits`
exhausts its default iteration budget: node 0 points to every node of the
block 0..19 and node 20 points to every node of the block 20..38. -/
def A39Z : Matrix (Fin 39) (Fin 39) ℤ := fun i j =>
  if ((i : ℕ) = 0 ∧ (j : ℕ) < 20) ∨ ((i : ℕ) = 20 ∧ 20 ≤ (j : ℕ)) then 1 else 0

/-- Authority matrix of the 39-node graph: block-constant with an all-ones
20-block and an all-ones 19-block. -/
def M39Z : Matrix (Fin 39) (Fin 39) ℤ := fun i j =>
  if ((i : ℕ) < 20 ∧ (j : ℕ) < 20) ∨ (20 ≤ (i : ℕ) ∧ 20 ≤ (j : ℕ)) then 1 else 0

set_option maxHeartbeats 4000000 in
set_option maxRecDepth 10000 in
theorem A39Z_gram : A39Zᵀ * A39Z = M39Z := by decide

/-- Real adjacency matrix of the 39-node graph. -/
noncomputable def A39 : Matrix (Fin 39) (Fin 39) ℝ := A39Z.map (Int.castRingHom ℝ)

theorem M39_cast : A39ᵀ * A39 = M39Z.map (Int.castRingHom ℝ) := by
  unfold A39
  rw [← Matrix.transpose_map, ← Matrix.map_mul, A39Z_gram]

/-- Block-constant vector on the 39-node graph: value `a` on the 20-block
and `b` on the 19-block. -/
noncomputable def patVec (a b : ℝ) : Fin 39 → ℝ :=
  fun i => if (i : ℕ) < 20 then a else b

theorem sum_ite20 (x y : ℝ) :
    (∑ i : Fin 39, if (i : ℕ) < 20 then x else y) = 20 * x + 19 * y := by
  rw [Finset.sum_ite, Finset.sum_const, Finset.sum_const]
  have h1 : (Finset.univ.filter (fun i : Fin 39 => (i : ℕ) < 20)).card = 20 := by decide
  have h2 : (Finset.univ.filter (fun i : Fin 39 => ¬ (i : ℕ) < 20)).card = 19 := by decide
  rw [h1, h2]
  push_cast [nsmul_eq_mul]
  ring

theorem patVec_sum (a b : ℝ) : (∑ i, patVec a b i) = 20 * a + 19 * b := by
  unfold patVec
  exact sum_ite20 a b

theorem patVec_sum_sq (a b : ℝ) :
    (∑ i, (patVec a b i) ^ 2) = 20 * a ^ 2 + 19 * b ^ 2 := by
  have h : ∀ i : Fin 39, (patVec a b i) ^ 2 =
      if (i : ℕ) < 20 then a ^ 2 else b ^ 2 := by
    intro i
    unfold patVec
    split <;> rfl
  rw [Finset.sum_congr rfl (fun i _ => h i)]
  exact sum_ite20 _ _

theorem patVec_l1dist (a b c d : ℝ) :
    l1dist (patVec a b) (patVec c d) = 20 * |a - c| + 19 * |b - d| := by
  unfold l1dist
  have h : ∀ i : Fin 39, |patVec a b i - patVec c d i| =
      if (i : ℕ) < 20 then |a - c| else |b - d| := by
    intro i
    unfold patVec
    split <;> rfl
  rw [Finset.sum_congr rfl (fun i _ => h i)]
  exact sum_ite20 _ _

/-- Integer pair recursion tracking the exact ratio of the two block values
of the `randomised_hits` iterates on the 39-node graph with
`eps = 760/16321`: the mixed matrix acts on block-constant vectors through
the 2 by 2 matrix with rows (639620, 760) and (800, 607639) over 33501. -/
def pqInt : ℕ → ℤ × ℤ
  | 0 => (1, 1)
  | t + 1 =>
    let pq := pqInt t
    (639620 * pq.1 + 760 * pq.2, 800 * pq.1 + 607639 * pq.2)

/-- Numerator of the exact block-value ratio at step `t`. -/
def pInt (t : ℕ) : ℤ := (pqInt t).1

/-- Denominator of the exact block-value ratio at step `t`. -/
def qInt (t : ℕ) : ℤ := (pqInt t).2

theorem pInt_succ (t : ℕ) : pInt (t + 1) = 639620 * pInt t + 760 * qInt t := rfl

theorem qInt_succ (t : ℕ) : qInt (t + 1) = 800 * pInt t + 607639 * qInt t := rfl

/-- The exact ratio stays in the interval [1, 40): positivity and the two
linear bounds propagate through the integer recursion. -/
theorem pq_bounds : ∀ t, 0 < qInt t ∧ qInt t ≤ pInt t ∧ pInt t < 40 * qInt t := by
  intro t
  induction t with
  | zero => refine ⟨by decide, by decide, by decide⟩
  | succ t ih =>
    obtain ⟨hq, hqp, hp40⟩ := ih
    refine ⟨?_, ?_, ?_⟩
    · rw [qInt_succ]
      nlinarith
    · rw [pInt_succ, qInt_succ]
      linarith
    · rw [pInt_succ, qInt_succ]
      linarith

/-- Closed forms of the integer pair: `821 p_t = 840 a^t - 19 b^t` and
`821 q_t = 21 a^t + 800 b^t` with `a = 639639` and `b = 607620`. -/
theorem pq_closed : ∀ t, 821 * pInt t = 840 * 639639 ^ t - 19 * 607620 ^ t ∧
    821 * qInt t = 21 * 639639 ^ t + 800 * 607620 ^ t := by
  intro t
  induction t with
  | zero => refine ⟨by decide, by decide⟩
  | succ t ih =>
    obtain ⟨hp, hq⟩ := ih
    constructor
    · have h1 : 821 * pInt (t + 1) =
          639620 * (821 * pInt t) + 760 * (821 * qInt t) := by
        rw [pInt_succ]; ring
      rw [h1, hp, hq]
      ring
    · have h1 : 821 * qInt (t + 1) =
          800 * (821 * pInt t) + 607639 * (821 * qInt t) := by
        rw [qInt_succ]; ring
      rw [h1, hp, hq]
      ring

/-- Distance of the ratio to the fixed value 40 contracts by exactly
607620 each step: `40 q_t - p_t = 39 * 607620 ^ t`. -/
theorem pq_w (t : ℕ) : 40 * qInt t - pInt t = 39 * 607620 ^ t := by
  have h := pq_closed t
  have h821 : (821 : ℤ) * (40 * qInt t - pInt t) = 821 * (39 * 607620 ^ t) := by
    have : (821 : ℤ) * (40 * qInt t - pInt t) =
        40 * (821 * qInt t) - (821 * pInt t) := by ring
    rw [this, h.1, h.2]
    ring
  exact mul_left_cancel₀ (by norm_num) h821

/-- Companion combination growing by exactly 639639 each step:
`800 p_t + 19 q_t = 819 * 639639 ^ t`. -/
theorem pq_v (t : ℕ) : 800 * pInt t + 19 * qInt t = 819 * 639639 ^ t := by
  have h := pq_closed t
  have h821 : (821 : ℤ) * (800 * pInt t + 19 * qInt t) =
      821 * (819 * 639639 ^ t) := by
    have : (821 : ℤ) * (800 * pInt t + 19 * qInt t) =
        800 * (821 * pInt t) + 19 * (821 * qInt t) := by ring
    rw [this, h.1, h.2]
    ring
  exact mul_left_cancel₀ (by norm_num) h821

theorem mixed39_entry (i j : Fin 39) :
    mixedMatrix 39 A39 (760 / 16321) i j =
      (1 - 760 / 16321) * ((M39Z i j : ℤ) : ℝ) + (760 / 16321) / 39 := by
  unfold mixedMatrix onesMatrix
  rw [M39_cast]
  simp only [Matrix.add_apply, Matrix.smul_apply, Matrix.map_apply,
    Int.coe_castRingHom, smul_eq_mul, mul_one]
  norm_num

theorem M39row_pat (i : Fin 39) (a b : ℝ) :
    (∑ j, ((M39Z i j : ℤ) : ℝ) * patVec a b j) =
      if (i : ℕ) < 20 then 20 * a else 19 * b := by
  by_cases hi : (i : ℕ) < 20
  · rw [if_pos hi]
    have h : ∀ j : Fin 39, ((M39Z i j : ℤ) : ℝ) * patVec a b j =
        if (j : ℕ) < 20 then a else 0 := by
      intro j
      simp only [M39Z, patVec]
      rcases Nat.lt_or_ge (j : ℕ) 20 with hj | hj
      · rw [if_pos (Or.inl ⟨hi, hj⟩), if_pos hj, if_pos hj]
        norm_num
      · have hj' : ¬ (j : ℕ) < 20 := by omega
        rw [if_neg (by omega), if_neg hj', if_neg hj']
        norm_num
    rw [Finset.sum_congr rfl (fun j _ => h j), sum_ite20]
    ring
  · rw [if_neg hi]
    have h : ∀ j : Fin 39, ((M39Z i j : ℤ) : ℝ) * patVec a b j =
        if (j : ℕ) < 20 then 0 else b := by
      intro j
      simp only [M39Z, patVec]
      rcases Nat.lt_or_ge (j : ℕ) 20 with hj | hj
      · rw [if_neg (by omega), if_pos hj, if_pos hj]
        norm_num
      · have hj' : ¬ (j : ℕ) < 20 := by omega
        rw [if_pos (Or.inr ⟨by omega, hj⟩), if_neg hj', if_neg hj']
        norm_num
    rw [Finset.sum_congr rfl (fun j _ => h j), sum_ite20]
    ring

/-- Action of the mixed matrix of the 39-node graph on block-constant
vectors: the two block values transform by the 2 by 2 matrix with rows
(639620, 760) and (800, 607639) over 33501. -/
theorem mixed39_pat (a b : ℝ) :
    (mixedMatrix 39 A39 (760 / 16321)).mulVec (patVec a b) =
      patVec ((639620 * a + 760 * b) / 33501)
        ((800 * a + 607639 * b) / 33501) := by
  funext i
  have hmv : (mixedMatrix 39 A39 (760 / 16321)).mulVec (patVec a b) i =
      ∑ j, mixedMatrix 39 A39 (760 / 16321) i j * patVec a b j := rfl
  have hsplit : ∀ j : Fin 39,
      mixedMatrix 39 A39 (760 / 16321) i j * patVec a b j =
        (1 - 760 / 16321) * (((M39Z i j : ℤ) : ℝ) * patVec a b j) +
          (760 / 16321) / 39 * patVec a b j := by
    intro j
    rw [mixed39_entry]
    ring
  rw [hmv, Finset.sum_congr rfl (fun j _ => hsplit j), Finset.sum_add_distrib,
    ← Finset.mul_sum, ← Finset.mul_sum, M39row_pat, patVec_sum]
  show _ = patVec _ _ i
  unfold patVec
  by_cases hi : (i : ℕ) < 20
  · rw [if_pos hi, if_pos hi]
    field_simp
    ring
  · rw [if_neg hi, if_neg hi]
    field_simp
    ring

theorem patVec_l2norm (a b : ℝ) :
    l2norm (patVec a b) = Real.sqrt (20 * a ^ 2 + 19 * b ^ 2) := by
  unfold l2norm
  rw [patVec_sum_sq]

theorem normalize_patVec (a b : ℝ) :
    normalizeL2 (patVec a b) =
      patVec (a / l2norm (patVec a b)) (b / l2norm (patVec a b)) := by
  funext i
  unfold normalizeL2 patVec
  split <;> rfl

/-- One step of `randomised_hits` on the 39-node graph sends a positive
block-constant vector to a positive unit block-constant vector whose block
values are a common positive multiple of the 2 by 2 update of the old
ones. -/
theorem rand39_step_pat (a b : ℝ) (ha : 0 < a) (hb : 0 < b) :
    ∃ c : ℝ, 0 < c ∧
      randomisedStep 39 A39 (760 / 16321) (patVec a b) =
        patVec (c * (639620 * a + 760 * b)) (c * (800 * a + 607639 * b)) ∧
      20 * (c * (639620 * a + 760 * b)) ^ 2 +
        19 * (c * (800 * a + 607639 * b)) ^ 2 = 1 := by
  have hApos : 0 < (639620 * a + 760 * b) / 33501 := by positivity
  have hBpos : 0 < (800 * a + 607639 * b) / 33501 := by positivity
  have hstep : randomisedStep 39 A39 (760 / 16321) (patVec a b) =
      normalizeL2 (patVec ((639620 * a + 760 * b) / 33501)
        ((800 * a + 607639 * b) / 33501)) := by
    unfold randomisedStep randomisedRaw
    rw [mixed39_pat]
  have hrpos : 0 < l2norm (patVec ((639620 * a + 760 * b) / 33501)
      ((800 * a + 607639 * b) / 33501)) := by
    rw [patVec_l2norm]
    apply Real.sqrt_pos.mpr
    positivity
  have hr2 : (l2norm (patVec ((639620 * a + 760 * b) / 33501)
      ((800 * a + 607639 * b) / 33501))) ^ 2 =
      20 * ((639620 * a + 760 * b) / 33501) ^ 2 +
        19 * ((800 * a + 607639 * b) / 33501) ^ 2 := by
    rw [patVec_l2norm]
    exact Real.sq_sqrt (by positivity)
  refine ⟨1 / (33501 * l2norm (patVec ((639620 * a + 760 * b) / 33501)
      ((800 * a + 607639 * b) / 33501))), by positivity, ?_, ?_⟩
  · rw [hstep, normalize_patVec]
    funext i
    unfold patVec
    split <;> (field_simp; try ring)
  · have hrne : l2norm (patVec ((639620 * a + 760 * b) / 33501)
        ((800 * a + 607639 * b) / 33501)) ≠ 0 := hrpos.ne'
    field_simp
    nlinarith [hr2]

/-- Every iterate of `randomised_hits` on the 39-node graph is a positive
block-constant vector whose block-value ratio is exactly `pInt t / qInt t`,
and from the first update on it has unit Euclidean norm. -/
theorem rand39_iter_pat : ∀ t, ∃ a b : ℝ, 0 < a ∧ 0 < b ∧
    iterSeq (randomisedStep 39 A39 (760 / 16321)) (uniformVec 39) t =
      patVec a b ∧
    a * ((qInt t : ℤ) : ℝ) = b * ((pInt t : ℤ) : ℝ) ∧
    (1 ≤ t → 20 * a ^ 2 + 19 * b ^ 2 = 1) := by
  intro t
  induction t with
  | zero =>
    refine ⟨1 / 39, 1 / 39, by norm_num, by norm_num, ?_, ?_,
      fun h => absurd h (by norm_num)⟩
    · funext i
      unfold iterSeq uniformVec patVec
      split <;> norm_num
    · show (1 / 39 : ℝ) * ((qInt 0 : ℤ) : ℝ) = 1 / 39 * ((pInt 0 : ℤ) : ℝ)
      norm_num [pInt, qInt, pqInt]
  | succ t ih =>
    obtain ⟨a, b, ha, hb, hiter, hratio, _⟩ := ih
    obtain ⟨c, hc, hstep, hunit⟩ := rand39_step_pat a b ha hb
    refine ⟨c * (639620 * a + 760 * b), c * (800 * a + 607639 * b),
      by positivity, by positivity, ?_, ?_, fun _ => hunit⟩
    · rw [iterSeq_succ, hiter, hstep]
    · have hp : ((pInt (t + 1) : ℤ) : ℝ) =
          639620 * ((pInt t : ℤ) : ℝ) + 760 * ((qInt t : ℤ) : ℝ) := by
        rw [pInt_succ]
        push_cast
        ring
      have hq : ((qInt (t + 1) : ℤ) : ℝ) =
          800 * ((pInt t : ℤ) : ℝ) + 607639 * ((qInt t : ℤ) : ℝ) := by
        rw [qInt_succ]
        push_cast
        ring
      rw [hp, hq]
      linear_combination (c * (639620 * 607639 - 760 * 800) : ℝ) * hratio

/-- Endpoint bound for the convex combination `A u + B / u`: on the interval
[1, U] it is maximised at an endpoint. -/
theorem endpoint_bound (A B u U : ℝ) (hA : 0 ≤ A) (hB : 0 ≤ B)
    (h1 : 1 ≤ u) (hU : u ≤ U) :
    A * u + B / u ≤ max (A + B) (A * U + B / U) := by
  have hu : 0 < u := lt_of_lt_of_le one_pos h1
  have hUpos : 0 < U := lt_of_lt_of_le hu hU
  rcases le_or_lt (A * u * u) B with hc | hc
  · apply le_max_of_le_left
    have hBA : A ≤ B / u := by
      rw [le_div_iff hu]
      nlinarith
    nlinarith [mul_nonneg (by linarith : (0 : ℝ) ≤ u - 1)
      (by linarith : (0 : ℝ) ≤ B / u - A),
      mul_div_cancel₀ B hu.ne']
  · apply le_max_of_le_right
    have hBA : B / (u * U) ≤ A := by
      rw [div_le_iff (by positivity)]
      nlinarith
    have key : A * U + B / U - (A * u + B / u) = (U - u) * (A - B / (u * U)) := by
      field_simp
      ring
    nlinarith [mul_nonneg (by linarith : (0 : ℝ) ≤ U - u)
      (by linarith : (0 : ℝ) ≤ A - B / (u * U))]

set_option maxRecDepth 4000 in
theorem c2_endpoint_int :
    (179 : ℤ) * ((21 * 639639 ^ 199 + 800 * 607620 ^ 199) *
        (21 * 639639 ^ 200 + 800 * 607620 ^ 200)) ≤
      23750000 * 31941 * 821 ^ 2 * (639639 ^ 199 * 607620 ^ 199) := by
  decide

/-- Uniform lower bound for the ratio gaps: for block-power values
`X = 639639 ^ t` and `Y = 607620 ^ t` with `t ≤ 199`, the product
inequality behind `gap_t ≥ 179 / 23750000` holds, by the endpoint bound
together with exact checks at `t = 0` and `t = 199`. -/
theorem gap_core (X Y : ℝ) (hX : 0 < X) (hY : 0 < Y) (hYX : Y ≤ X)
    (hU : X * 607620 ^ 199 ≤ 639639 ^ 199 * Y) :
    179 * ((21 * X + 800 * Y) * (21 * 639639 * X + 800 * 607620 * Y)) ≤
      23750000 * 31941 * 821 ^ 2 * (X * Y) := by
  have hP : (0 : ℝ) < 639639 ^ 199 := by positivity
  have hQ : (0 : ℝ) < 607620 ^ 199 := by positivity
  have hu1 : 1 ≤ X / Y := (one_le_div hY).mpr hYX
  have huU : X / Y ≤ 639639 ^ 199 / 607620 ^ 199 := by
    rw [div_le_div_iff hY hQ]
    linarith
  have hend := endpoint_bound (441 * 639639) (640000 * 607620) (X / Y)
    ((639639 : ℝ) ^ 199 / 607620 ^ 199) (by norm_num) (by norm_num) hu1 huU
  have hcheck1 : 179 * ((441 * 639639 + 640000 * 607620 : ℝ) +
      16800 * (639639 + 607620)) ≤ 23750000 * 31941 * 821 ^ 2 := by
    norm_num
  have hint : (179 : ℝ) * ((21 * 639639 ^ 199 + 800 * 607620 ^ 199) *
      (21 * 639639 ^ 200 + 800 * 607620 ^ 200)) ≤
      23750000 * 31941 * 821 ^ 2 * (639639 ^ 199 * 607620 ^ 199) := by
    exact_mod_cast c2_endpoint_int
  have hpow200a : (639639 : ℝ) ^ 200 = 639639 * 639639 ^ 199 := by
    rw [pow_succ]
    ring
  have hpow200b : (607620 : ℝ) ^ 200 = 607620 * 607620 ^ 199 := by
    rw [pow_succ]
    ring
  have hcheck2 : 179 * ((441 * 639639) * ((639639 : ℝ) ^ 199 / 607620 ^ 199) +
      (640000 * 607620) / ((639639 : ℝ) ^ 199 / 607620 ^ 199) +
      16800 * (639639 + 607620)) ≤ 23750000 * 31941 * 821 ^ 2 := by
    rw [hpow200a, hpow200b] at hint
    have e : (441 * 639639) * ((639639 : ℝ) ^ 199 / 607620 ^ 199) +
        (640000 * 607620) / ((639639 : ℝ) ^ 199 / 607620 ^ 199) +
        16800 * (639639 + 607620) =
        ((21 * 639639 ^ 199 + 800 * 607620 ^ 199) *
          (21 * (639639 * 639639 ^ 199) + 800 * (607620 * 607620 ^ 199))) /
          ((639639 : ℝ) ^ 199 * 607620 ^ 199) := by
      field_simp
      ring
    rw [e, ← mul_div_assoc,
      div_le_iff (by positivity : (0 : ℝ) < 639639 ^ 199 * 607620 ^ 199)]
    linarith [hint]
  have hmain : 179 * ((441 * 639639) * (X / Y) +
      (640000 * 607620) / (X / Y) + 16800 * (639639 + 607620)) ≤
      23750000 * 31941 * 821 ^ 2 := by
    rcases le_max_iff.mp hend with h | h
    · nlinarith [h]
    · nlinarith [h, hcheck2]
  have hexp : (21 * X + 800 * Y) * (21 * 639639 * X + 800 * 607620 * Y) =
      X * Y * ((441 * 639639) * (X / Y) + (640000 * 607620) / (X / Y) +
        16800 * (639639 + 607620)) := by
    field_simp
    ring
  rw [hexp]
  nlinarith [hmain, mul_pos hX hY]

theorem qInt_cast_pos (t : ℕ) : (0 : ℝ) < ((qInt t : ℤ) : ℝ) := by
  exact_mod_cast (pq_bounds t).1

theorem q821_cast (t : ℕ) : 821 * ((qInt t : ℤ) : ℝ) =
    21 * (639639 : ℝ) ^ t + 800 * (607620 : ℝ) ^ t := by
  have h := congrArg (fun z : ℤ => (z : ℝ)) (pq_closed t).2
  push_cast at h
  linarith [h]

/-- Exact value and uniform lower bound of the ratio gap: for every
`t ≤ 199` the ratio `pInt / qInt` advances by at least `179 / 23750000`
in one step. -/
theorem rand39_gap_ge (t : ℕ) (ht : t ≤ 199) :
    179 / 23750000 ≤
      ((pInt (t + 1) : ℤ) : ℝ) / ((qInt (t + 1) : ℤ) : ℝ) -
        ((pInt t : ℤ) : ℝ) / ((qInt t : ℤ) : ℝ) := by
  have hq := qInt_cast_pos t
  have hq' := qInt_cast_pos (t + 1)
  have hnum : pInt (t + 1) * qInt t - pInt t * qInt (t + 1) =
      31941 * (639639 ^ t * 607620 ^ t) := by
    have h1 : pInt (t + 1) * qInt t - pInt t * qInt (t + 1) =
        (40 * qInt t - pInt t) * (800 * pInt t + 19 * qInt t) := by
      rw [pInt_succ, qInt_succ]
      ring
    rw [h1, pq_w, pq_v]
    ring
  have hc : ((pInt (t + 1) : ℤ) : ℝ) * ((qInt t : ℤ) : ℝ) -
      ((pInt t : ℤ) : ℝ) * ((qInt (t + 1) : ℤ) : ℝ) =
      31941 * ((639639 : ℝ) ^ t * (607620 : ℝ) ^ t) := by
    have h := congrArg (fun z : ℤ => (z : ℝ)) hnum
    push_cast at h
    linarith [h]
  have hgap : ((pInt (t + 1) : ℤ) : ℝ) / ((qInt (t + 1) : ℤ) : ℝ) -
      ((pInt t : ℤ) : ℝ) / ((qInt t : ℤ) : ℝ) =
      31941 * ((639639 : ℝ) ^ t * (607620 : ℝ) ^ t) /
        (((qInt t : ℤ) : ℝ) * ((qInt (t + 1) : ℤ) : ℝ)) := by
    rw [div_sub_div _ _ hq'.ne' hq.ne', div_eq_div_iff (by positivity) (by positivity)]
    linear_combination (((qInt t : ℤ) : ℝ) * ((qInt (t + 1) : ℤ) : ℝ)) * hc
  rw [hgap, le_div_iff (by positivity)]
  have hX : (0 : ℝ) < (639639 : ℝ) ^ t := by positivity
  have hY : (0 : ℝ) < (607620 : ℝ) ^ t := by positivity
  have hYX : (607620 : ℝ) ^ t ≤ (639639 : ℝ) ^ t :=
    pow_le_pow_left (by norm_num) (by norm_num) t
  have hU : (639639 : ℝ) ^ t * 607620 ^ 199 ≤ 639639 ^ 199 * (607620 : ℝ) ^ t := by
    have h199 : 199 = t + (199 - t) := by omega
    rw [h199, pow_add, pow_add]
    have hk : (607620 : ℝ) ^ (199 - t) ≤ (639639 : ℝ) ^ (199 - t) :=
      pow_le_pow_left (by norm_num) (by norm_num) _
    have h1 : (0 : ℝ) ≤ (639639 : ℝ) ^ t * (607620 : ℝ) ^ t := by positivity
    calc (639639 : ℝ) ^ t * ((607620 : ℝ) ^ t * (607620 : ℝ) ^ (199 - t))
        = ((639639 : ℝ) ^ t * (607620 : ℝ) ^ t) * (607620 : ℝ) ^ (199 - t) := by
          ring
      _ ≤ ((639639 : ℝ) ^ t * (607620 : ℝ) ^ t) * (639639 : ℝ) ^ (199 - t) :=
          mul_le_mul_of_nonneg_left hk h1
      _ = (639639 : ℝ) ^ t * (639639 : ℝ) ^ (199 - t) * (607620 : ℝ) ^ t := by
          ring
  have key := gap_core ((639639 : ℝ) ^ t) ((607620 : ℝ) ^ t) hX hY hYX hU
  have hprod : (21 * (639639 : ℝ) ^ t + 800 * (607620 : ℝ) ^ t) *
      (21 * 639639 * (639639 : ℝ) ^ t + 800 * 607620 * (607620 : ℝ) ^ t) =
      821 ^ 2 * (((qInt t : ℤ) : ℝ) * ((qInt (t + 1) : ℤ) : ℝ)) := by
    have h1 := q821_cast t
    have h2 := q821_cast (t + 1)
    rw [pow_succ, pow_succ] at h2
    nlinarith [h1, h2]
  rw [hprod] at key
  linarith [key]

/-- Lower bound on the L1 distance of two positive unit block-constant
vectors through the advance of their block-value ratios: if both ratios
lie in [1, 40] then the distance is at least `(19 / 14320)` times the
ratio advance. -/
theorem pat_dist_lower (b b' rho rho' : ℝ)
    (hb : 0 < b) (hb' : 0 < b')
    (hu : 20 * (rho * b) ^ 2 + 19 * b ^ 2 = 1)
    (hu' : 20 * (rho' * b') ^ 2 + 19 * b' ^ 2 = 1)
    (hrho1 : 1 ≤ rho) (hlt : rho < rho') (hrho40 : rho' ≤ 40) :
    19 / 14320 * (rho' - rho) ≤
      l1dist (patVec (rho' * b') b') (patVec (rho * b) b) := by
  rw [patVec_l1dist]
  have hrho0 : 0 < rho := lt_of_lt_of_le one_pos hrho1
  have hrho'0 : 0 < rho' := lt_trans hrho0 hlt
  have hsq : rho ^ 2 < rho' ^ 2 := by nlinarith
  have hbsq : b' ^ 2 < b ^ 2 := by
    nlinarith [sq_nonneg rho', mul_pos hb hb]
  have hbb : b' < b := lt_of_pow_lt_pow_left 2 hb.le hbsq
  have hbsq179 : 1 / 32019 ≤ b ^ 2 := by
    nlinarith [mul_nonneg (mul_nonneg (by linarith : (0 : ℝ) ≤ 40 - rho)
      (by linarith : (0 : ℝ) ≤ 40 + rho)) (sq_nonneg b)]
  have hb179 : 1 / 179 ≤ b := by
    by_contra hcon
    push_neg at hcon
    have h2 : b ^ 2 < (1 / 179) ^ 2 := by nlinarith
    have h3 : ((1 : ℝ) / 179) ^ 2 < 1 / 32019 := by norm_num
    linarith
  have habs_b : |b' - b| = b - b' := by
    rw [abs_of_neg (by linarith)]
    ring
  rcases le_or_lt (b - b') ((rho' - rho) * b / (2 * rho')) with hcase | hcase
  · have ha : (rho' - rho) * b / 2 ≤ rho' * b' - rho * b := by
      have h1 : rho' * b' - rho * b = rho' * (b' - b) + (rho' - rho) * b := by
        ring
      have h2 : rho' * (b - b') ≤ rho' * ((rho' - rho) * b / (2 * rho')) :=
        mul_le_mul_of_nonneg_left hcase (le_of_lt hrho'0)
      have h3 : rho' * ((rho' - rho) * b / (2 * rho')) = (rho' - rho) * b / 2 := by
        field_simp
        ring
      rw [h3] at h2
      linarith
    have habs_a : rho' * b' - rho * b ≤ |rho' * b' - rho * b| := le_abs_self _
    have hfin : 19 / 14320 * (rho' - rho) ≤ 20 * ((rho' - rho) * b / 2) := by
      have : (rho' - rho) * (1 / 179) ≤ (rho' - rho) * b :=
        mul_le_mul_of_nonneg_left hb179 (by linarith)
      nlinarith
    nlinarith [abs_nonneg (rho' * b' - rho * b)]
  · have h80 : (rho' - rho) * b / 80 ≤ (rho' - rho) * b / (2 * rho') :=
      div_le_div_of_nonneg_left (mul_nonneg (by linarith) hb.le)
        (by positivity) (by linarith)
    have hfin : 19 / 14320 * (rho' - rho) ≤ 19 * ((rho' - rho) * b / 80) := by
      have : (rho' - rho) * (1 / 179) ≤ (rho' - rho) * b :=
        mul_le_mul_of_nonneg_left hb179 (by linarith)
      nlinarith
    rw [habs_b]
    nlinarith [abs_nonneg (rho' * b' - rho * b)]

/-- The convergence test of `randomised_hits` on the 39-node graph with
`eps = 760/16321` and the default tolerance never fires within the default
iteration budget: the first step moves the un-normalised uniform start onto
the unit sphere, and afterwards the block-value ratio advances by at least
`179/23750000` per step, forcing an L1 movement of at least the
tolerance. -/
theorem rand39_notfire : ∀ t, t < 200 →
    ¬ firesAt (randomisedStep 39 A39 (760 / 16321)) (uniformVec 39)
      (1 / 10 ^ 8) t := by
  intro t ht
  unfold firesAt
  rw [not_lt]
  match t with
  | 0 =>
    obtain ⟨a', b', ha', hb', hiter', _, hunit'⟩ := rand39_iter_pat 1
    have h0 : iterSeq (randomisedStep 39 A39 (760 / 16321)) (uniformVec 39) 0 =
        patVec (1 / 39) (1 / 39) := by
      funext i
      unfold iterSeq uniformVec patVec
      split <;> norm_num
    rw [h0, hiter', patVec_l1dist]
    have hu := hunit' (by norm_num)
    have hs : 1 + 1 / 10 ^ 8 ≤ 20 * a' + 19 * b' := by
      nlinarith [mul_pos ha' hb', sq_nonneg a', sq_nonneg b']
    have h1 := le_abs_self (a' - 1 / 39)
    have h2 := le_abs_self (b' - 1 / 39)
    nlinarith [h1, h2]
  | (s + 1) =>
    obtain ⟨a, b, ha, hb, hiter, hratio, hunit⟩ := rand39_iter_pat (s + 1)
    obtain ⟨a', b', ha', hb', hiter', hratio', hunit'⟩ := rand39_iter_pat (s + 2)
    have hq := qInt_cast_pos (s + 1)
    have hq' := qInt_cast_pos (s + 2)
    have ha_eq : a = ((pInt (s + 1) : ℤ) : ℝ) / ((qInt (s + 1) : ℤ) : ℝ) * b := by
      rw [div_mul_eq_mul_div, eq_div_iff hq.ne']
      linarith [hratio]
    have ha'_eq : a' =
        ((pInt (s + 2) : ℤ) : ℝ) / ((qInt (s + 2) : ℤ) : ℝ) * b' := by
      rw [div_mul_eq_mul_div, eq_div_iff hq'.ne']
      linarith [hratio']
    have hrho1 : 1 ≤ ((pInt (s + 1) : ℤ) : ℝ) / ((qInt (s + 1) : ℤ) : ℝ) := by
      rw [le_div_iff hq]
      have : (qInt (s + 1) : ℝ) ≤ (pInt (s + 1) : ℝ) := by
        exact_mod_cast (pq_bounds (s + 1)).2.1
      linarith
    have hrho40 : ((pInt (s + 2) : ℤ) : ℝ) / ((qInt (s + 2) : ℤ) : ℝ) ≤ 40 := by
      rw [div_le_iff hq']
      have : (pInt (s + 2) : ℝ) < 40 * (qInt (s + 2) : ℝ) := by
        exact_mod_cast (pq_bounds (s + 2)).2.2
      linarith
    have hgap := rand39_gap_ge (s + 1) (by omega)
    have hlt : ((pInt (s + 1) : ℤ) : ℝ) / ((qInt (s + 1) : ℤ) : ℝ) <
        ((pInt (s + 2) : ℤ) : ℝ) / ((qInt (s + 2) : ℤ) : ℝ) := by
      nlinarith [hgap]
    have hu : 20 * (((pInt (s + 1) : ℤ) : ℝ) / ((qInt (s + 1) : ℤ) : ℝ) * b) ^ 2 +
        19 * b ^ 2 = 1 := by
      rw [← ha_eq]
      exact hunit (by omega)
    have hu' : 20 * (((pInt (s + 2) : ℤ) : ℝ) / ((qInt (s + 2) : ℤ) : ℝ) * b') ^ 2 +
        19 * b' ^ 2 = 1 := by
      rw [← ha'_eq]
      exact hunit' (by omega)
    have hlow := pat_dist_lower b b' _ _ hb hb' hu hu' hrho1 hlt hrho40
    rw [hiter, hiter', ha_eq, ha'_eq]
    calc (1 : ℝ) / 10 ^ 8 = 19 / 14320 * (179 / 23750000) := by norm_num
      _ ≤ 19 / 14320 * (((pInt (s + 2) : ℤ) : ℝ) / ((qInt (s + 2) : ℤ) : ℝ) -
          ((pInt (s + 1) : ℤ) : ℝ) / ((qInt (s + 1) : ℤ) : ℝ)) := by
          linarith [hgap]
      _ ≤ _ := hlow

/-- C2 counterexample: on the 39-node two-block graph with
`eps = 760/16321` (which lies strictly between 0 and 1) and the default
`tol = 1e-8` and `max_iter = 200`, the loop of `randomised_hits` exhausts
all 200 iterations without the L1 tolerance test ever firing, so the run
does NOT terminate via the convergence test: strict positivity of the
mixed matrix guarantees eventual convergence but not convergence within
the default budget. -/
theorem C2_counterexample :
    ((0 : ℝ) < 760 / 16321 ∧ (760 : ℝ) / 16321 < 1) ∧
    (randomised_hits 39 A39 (760 / 16321) 200 (1 / 10 ^ 8)).2.2 = false := by
  refine ⟨⟨by norm_num, by norm_num⟩, ?_⟩
  unfold randomised_hits
  rw [powerLoop_exhaust _ _ _ _ rand39_notfire]

/-- C2 amended: every entry of the mixed matrix
`M' = (1-eps) AᵀA + (eps/n) J` is strictly positive for `0 < eps <= 1` on
a non-empty graph with non-negative adjacency matrix, and consequently
every iterate of the `randomised_hits` loop is strictly positive; this is
what the positivity argument of the specification actually yields — it
does not bound the number of iterations needed for the tolerance test to
fire. -/
theorem C2_mixed_positive_amended (n : ℕ) (A : Matrix (Fin n) (Fin n) ℝ)
    (eps : ℝ) (hn : 0 < n) (hA : ∀ i j, 0 ≤ A i j) (h0 : 0 < eps)
    (h1 : eps ≤ 1) :
    (∀ i j, 0 < mixedMatrix n A eps i j) ∧
    ∀ t i, 0 < iterSeq (randomisedStep n A eps) (uniformVec n) t i :=
  ⟨mixedMatrix_entry_pos n A eps hn hA h0 h1,
   fun t i => randomisedIter_pos n A eps hn hA h0 h1 t i⟩

/-- Witness for the amended C2 at the one-node self-loop graph. -/
theorem C2_mixed_positive_amended_witness :
    (∀ i j, 0 < mixedMatrix 1 oneLoopA (1 / 2) i j) ∧
    ∀ t i, 0 < iterSeq (randomisedStep 1 oneLoopA (1 / 2)) (uniformVec 1) t i :=
  C2_mixed_positive_amended 1 oneLoopA (1 / 2) (by norm_num)
    (by intro i j; norm_num [oneLoopA]) (by norm_num) (by norm_num)
